import Mathlib

/-!
# Verification of the `HashMap<K,V>` separate-chaining hash table (`src/hashmap.h`)

Shallow embedding of the C++ class `HashMap<K,V>`:

* `Entry` mirrors `struct Entry { K key; V value; }`.
* `HashMap` mirrors the data members `buckets`, `bucket_count`, `entry_count`,
  `max_load_factor`.  Buckets are lists of entries (the C++ `std::vector` of
  owning pointers, read as a sequence of values).
* `float`/`double` load-factor arithmetic is embedded over `ℚ`; the literals
  appearing in the source (`0.75f`) are exactly representable, and the
  quantities compared (`entry_count / bucket_count` against
  `max_load_factor`, `ceil(entry_count / max_load_factor)`) are modelled by
  exact rational arithmetic.
* `std::hash<K>` is an arbitrary function `hash : K → Nat`; key comparison
  `operator==` is propositional equality (`DecidableEq K`).
* The C++ `%` on `size_t` with a zero right operand is undefined behaviour;
  `hash_func` therefore returns `Option Nat`, `none` exactly when
  `bucket_count = 0`, and every operation that reaches that division is
  `Except`-valued with error `HMErr.DivByZero`.  `at` throwing
  `std::out_of_range` for a missing key is the error `HMErr.KeyNotFound`,
  the bucket-interface range checks are `HMErr.IndexOutOfRange`, and the
  constructor checks are `HMErr.InvalidArgument`.
* Iterators (`HashMap::Iterator`) are the pair `(bucket_idx, entry_idx)`;
  the C++ `map` pointer member is modelled by always using an iterator
  against the map it was drawn from (single-map setting), so the
  `pos.map != this` escape branch of `erase(Iterator)` is not exercised.
-/

/-- C++ `struct Entry<K,V> { K key; V value; }`. -/
structure Entry (K V : Type) where
  key : K
  value : V
deriving Repr, DecidableEq

/-- Error outcomes of the C++ code: `DivByZero` stands for the undefined
behaviour of `% 0`, the others for the `std::invalid_argument` /
`std::out_of_range` exceptions thrown by the source. -/
inductive HMErr where
  | DivByZero
  | KeyNotFound
  | IndexOutOfRange
  | InvalidArgument
  | InvalidIterator
deriving Repr, DecidableEq

/-- State of `class HashMap<K,V>`: the data members `buckets`,
`bucket_count`, `entry_count`, `max_load_factor`. -/
structure HashMap (K V : Type) where
  buckets : List (List (Entry K V))
  bucket_count : Nat
  entry_count : Nat
  max_load_factor : ℚ
deriving Repr, DecidableEq

/-- An iterator position `(bucket_idx, entry_idx)`; mirrors
`HashMap::Iterator` minus the `map` back-pointer (see the file header). -/
structure Iterator where
  bucket_idx : Nat
  entry_idx : Nat
deriving Repr, DecidableEq

namespace HashMap

variable {K V : Type} [DecidableEq K]

/-- The checking constructor `HashMap(size_t cap, float mlf)`:
`std::invalid_argument` when `cap == 0` or `mlf <= 0`, otherwise `cap`
empty buckets and `entry_count = 0`. -/
def hashMapNew (cap : Nat) (mlf : ℚ) : Except HMErr (HashMap K V) :=
  if cap = 0 then .error .InvalidArgument
  else if mlf ≤ 0 then .error .InvalidArgument
  else .ok ⟨List.replicate cap [], cap, 0, mlf⟩

/-- `hash_func`: `std::hash<K>{}(key) % bucket_count`; `none` models the
undefined `% 0` when `bucket_count == 0`. -/
def hash_func (hash : K → Nat) (m : HashMap K V) (key : K) : Option Nat :=
  if m.bucket_count = 0 then none
  else some (hash key % m.bucket_count)

/-- `find_entry`: scan the bucket `hash_func(key)` for the first entry whose
key equals `key` (`nullptr` ↦ `none`). -/
def find_entry (hash : K → Nat) (m : HashMap K V) (key : K) :
    Except HMErr (Option (Entry K V)) :=
  match hash_func hash m key with
  | none => .error .DivByZero
  | some index => .ok ((m.buckets.getD index []).find? (fun e => decide (e.key = key)))

/-- `load_factor()`: `entry_count / bucket_count` in exact arithmetic. -/
def load_factor (m : HashMap K V) : ℚ :=
  (m.entry_count : ℚ) / (m.bucket_count : ℚ)

/-- One step of the redistribution loop of `rehash`:
`buckets[index].push_back(e)`. -/
def bucketsPush (bs : List (List (Entry K V))) (index : Nat) (e : Entry K V) :
    List (List (Entry K V)) :=
  bs.set index ((bs.getD index []) ++ [e])

/-- `rehash(count)`: raise the requested size to
`ceil(entry_count / max_load_factor)`, no-op if the result equals the
current `bucket_count`, otherwise re-file every entry (in bucket-major
order, as the C++ nested loop does) into bucket `hash(key) % new_count`. -/
def rehash (hash : K → Nat) (m : HashMap K V) (count : Nat) : HashMap K V :=
  let min_required : Nat := Nat.ceil ((m.entry_count : ℚ) / m.max_load_factor)
  let new_bucket_count := if count < min_required then min_required else count
  if new_bucket_count = m.bucket_count then m
  else
    { buckets := m.buckets.flatten.foldl
        (fun bs e => bucketsPush bs (hash e.key % new_bucket_count) e)
        (List.replicate new_bucket_count []),
      bucket_count := new_bucket_count,
      entry_count := m.entry_count,
      max_load_factor := m.max_load_factor }

/-- In-place overwrite `e->value = value` of the first entry with the given
key, as performed by `insert` on a hit. -/
def overwriteValue : List (Entry K V) → K → V → List (Entry K V)
  | [], _, _ => []
  | e :: es, key, value =>
    if e.key = key then ⟨e.key, value⟩ :: es
    else e :: overwriteValue es key value

/-- `insert(key, value)`: overwrite on hit; otherwise append to the target
bucket, bump `entry_count`, and rehash to `bucket_count * 2` if
`load_factor() > max_load_factor`. -/
def insert (hash : K → Nat) (m : HashMap K V) (key : K) (value : V) :
    Except HMErr (HashMap K V) :=
  match hash_func hash m key with
  | none => .error .DivByZero
  | some index =>
    let b := m.buckets.getD index []
    if b.any (fun e => decide (e.key = key)) then
      .ok { m with buckets := m.buckets.set index (overwriteValue b key value) }
    else
      let m' : HashMap K V :=
        { m with buckets := m.buckets.set index (b ++ [⟨key, value⟩]),
                 entry_count := m.entry_count + 1 }
      if load_factor m' > m'.max_load_factor then
        .ok (rehash hash m' (m'.bucket_count * 2))
      else .ok m'

/-- The O(1) bucket deletion of both `erase` overloads:
`delete b[i]; if (i+1 != b.size()) b[i] = b.back(); b.pop_back();`. -/
def eraseSwap (b : List (Entry K V)) (i : Nat) : List (Entry K V) :=
  match b.getLast? with
  | none => b
  | some last => if i + 1 = b.length then b.dropLast else (b.set i last).dropLast

/-- `erase(const K&)`: search the target bucket; if the key is found remove
it by swap-with-last and return `1`, else return `0` with the table
untouched. -/
def erase_key (hash : K → Nat) (m : HashMap K V) (key : K) :
    Except HMErr (Nat × HashMap K V) :=
  match hash_func hash m key with
  | none => .error .DivByZero
  | some index =>
    let b := m.buckets.getD index []
    match b.findIdx? (fun e => decide (e.key = key)) with
    | some i =>
      .ok (1, { m with buckets := m.buckets.set index (eraseSwap b i),
                       entry_count := m.entry_count - 1 })
    | none => .ok (0, m)

/-- `at(key)`: lookup through `find_entry`, `std::out_of_range`
(`KeyNotFound`) when absent.  The embedding returns no map: the C++ method
only reads the table. -/
def atKey (hash : K → Nat) (m : HashMap K V) (key : K) : Except HMErr V :=
  match find_entry hash m key with
  | .error err => .error err
  | .ok none => .error .KeyNotFound
  | .ok (some e) => .ok e.value

/-- `contains(key)`: whether `find_entry` found an entry. -/
def contains (hash : K → Nat) (m : HashMap K V) (key : K) : Except HMErr Bool :=
  match find_entry hash m key with
  | .error err => .error err
  | .ok e => .ok e.isSome

/-- `end()`: the canonical past-the-end iterator `(bucket_count, 0)`. -/
def endIter (m : HashMap K V) : Iterator :=
  ⟨m.bucket_count, 0⟩

/-- The `while (idx < bucket_count && buckets[idx].empty()) idx++;` loops of
`operator++` and `erase(Iterator)`. -/
def skipEmpty (m : HashMap K V) (b : Nat) : Nat :=
  if h : b < m.bucket_count then
    if (m.buckets.getD b []).isEmpty then skipEmpty m (b + 1) else b
  else b
termination_by m.bucket_count - b

/-- `Iterator::operator++`: stay put past the end; advance within the
bucket while entries remain; otherwise move to the next non-empty bucket
(resetting `entry_idx` to 0). -/
def iterSucc (m : HashMap K V) (it : Iterator) : Iterator :=
  if m.bucket_count ≤ it.bucket_idx then it
  else
    let entry_idx := it.entry_idx + 1
    if it.bucket_idx < m.bucket_count ∧
        entry_idx < (m.buckets.getD it.bucket_idx []).length then
      ⟨it.bucket_idx, entry_idx⟩
    else
      ⟨skipEmpty m (it.bucket_idx + 1), 0⟩

/-- `Iterator::operator*`: the designated entry, `std::out_of_range`
(`InvalidIterator`) when the position does not exist. -/
def deref (m : HashMap K V) (it : Iterator) : Except HMErr (Entry K V) :=
  if m.bucket_count ≤ it.bucket_idx then .error .InvalidIterator
  else
    match (m.buckets.getD it.bucket_idx []).get? it.entry_idx with
    | some e => .ok e
    | none => .error .InvalidIterator

/-- `begin(size_t n)`: range-checked; the **global** `end()` if bucket `n`
is empty, else `(n, 0)`. -/
def begin_at (m : HashMap K V) (n : Nat) : Except HMErr Iterator :=
  if m.bucket_count ≤ n then .error .IndexOutOfRange
  else if (m.buckets.getD n []).isEmpty then .ok (endIter m)
  else .ok ⟨n, 0⟩

/-- `end(size_t n)`: range-checked; the cursor `(n, buckets[n].size())`. -/
def end_at (m : HashMap K V) (n : Nat) : Except HMErr Iterator :=
  if m.bucket_count ≤ n then .error .IndexOutOfRange
  else .ok ⟨n, (m.buckets.getD n []).length⟩

/-- `find(key)`: iterator to the matching entry of the target bucket, or
`end()`. -/
def find (hash : K → Nat) (m : HashMap K V) (key : K) : Except HMErr Iterator :=
  match hash_func hash m key with
  | none => .error .DivByZero
  | some index =>
    match (m.buckets.getD index []).findIdx? (fun e => decide (e.key = key)) with
    | some i => .ok ⟨index, i⟩
    | none => .ok (endIter m)

/-- `erase(Iterator pos)` against the map the iterator was drawn from:
invalid positions yield `end()` with the table untouched; otherwise remove
by swap-with-last, decrement `entry_count`, and return the cursor `(bucket,
i)` if the bucket still has an entry at `i`, else the first non-empty later
bucket, else `end()`. -/
def erase_iter (m : HashMap K V) (pos : Iterator) : HashMap K V × Iterator :=
  if m.bucket_count ≤ pos.bucket_idx then (m, endIter m)
  else
    let b := m.buckets.getD pos.bucket_idx []
    let i := pos.entry_idx
    if b.length ≤ i then (m, endIter m)
    else
      let b' := eraseSwap b i
      let m' : HashMap K V :=
        { m with buckets := m.buckets.set pos.bucket_idx b',
                 entry_count := m.entry_count - 1 }
      if i < b'.length then (m', ⟨pos.bucket_idx, i⟩)
      else
        let nb := skipEmpty m' (pos.bucket_idx + 1)
        if nb < m'.bucket_count then (m', ⟨nb, 0⟩)
        else (m', endIter m')

/-- `set_max_load_factor(ml)`: store the new threshold, then rehash to
double if the (unchanged) load factor now exceeds it. -/
def set_max_load_factor (hash : K → Nat) (m : HashMap K V) (ml : ℚ) : HashMap K V :=
  let m' : HashMap K V := { m with max_load_factor := ml }
  if load_factor m' > m'.max_load_factor then rehash hash m' (m'.bucket_count * 2)
  else m'

/-- The copy constructor `HashMap(const HashMap&)`: duplicates
`bucket_count`, `entry_count` and (deeply) every bucket for
`i < other.bucket_count`; its initializer list does **not** mention
`max_load_factor`, so the member default `0.75f` applies. -/
def copyCtor (other : HashMap K V) : HashMap K V :=
  { bucket_count := other.bucket_count,
    entry_count := other.entry_count,
    buckets := (List.range other.bucket_count).map (fun i => other.buckets.getD i []),
    max_load_factor := 3 / 4 }

/-- Copy assignment `operator=(const HashMap&)`: clears `self`, copies
`bucket_count`, `entry_count` and the buckets for `i < other.bucket_count`;
it never touches `max_load_factor`, which keeps `self`'s value. -/
def copyAssign (self other : HashMap K V) : HashMap K V :=
  { bucket_count := other.bucket_count,
    entry_count := other.entry_count,
    buckets := (List.range other.bucket_count).map (fun i => other.buckets.getD i []),
    max_load_factor := self.max_load_factor }

/-- All entries of the table in bucket-major order (what a full C++
iterator traversal visits). -/
def entriesOf (m : HashMap K V) : List (Entry K V) :=
  m.buckets.flatten

/-- Well-formedness maintained by the C++ class: the bucket array has
`bucket_count` cells, `entry_count` counts the entries, every entry sits in
the bucket its hash selects, and keys are globally unique. -/
def WF (hash : K → Nat) (m : HashMap K V) : Prop :=
  m.buckets.length = m.bucket_count ∧
  m.entry_count = (entriesOf m).length ∧
  (∀ i, i < m.bucket_count → ∀ e ∈ m.buckets.getD i [],
    hash e.key % m.bucket_count = i) ∧
  ((entriesOf m).map Entry.key).Nodup

instance (hash : K → Nat) [DecidableEq V] (m : HashMap K V) :
    Decidable (WF hash m) := by
  unfold WF; infer_instance

/-- Modelled from the spec: "cursor to the next logical entry, or
end-cursor" — in bucket-major order of a table, the first occupied position
at or after `(b, i)`: `(b, i)` itself if bucket `b` still holds an entry at
index `i`, otherwise the head of the first non-empty later bucket,
otherwise the end-cursor.  Used to state what `erase(Iterator)` returns. -/
def specNextCursor (m : HashMap K V) (b i : Nat) : Iterator :=
  if b < m.bucket_count then
    if i < (m.buckets.getD b []).length then ⟨b, i⟩
    else
      let nb := skipEmpty m (b + 1)
      if nb < m.bucket_count then ⟨nb, 0⟩ else endIter m
  else endIter m

/-- The mutations claim C1 quantifies over: `insert` and
`set_max_load_factor`. -/
inductive Op (K V : Type) where
  | ins (key : K) (value : V)
  | setMlf (ml : ℚ)
deriving Repr, DecidableEq

/-- Apply one operation. -/
def applyOp (hash : K → Nat) (m : HashMap K V) : Op K V → Except HMErr (HashMap K V)
  | .ins key value => insert hash m key value
  | .setMlf ml => .ok (set_max_load_factor hash m ml)

/-- Run a sequence of operations, stopping at the first error. -/
def runOps (hash : K → Nat) (m : HashMap K V) :
    List (Op K V) → Except HMErr (HashMap K V)
  | [] => .ok m
  | op :: ops =>
    match applyOp hash m op with
    | .error err => .error err
    | .ok m' => runOps hash m' ops

/-- `Op.setMlf` arguments are strictly positive (the hypothesis of C1). -/
def opPositive : Op K V → Bool
  | .ins _ _ => true
  | .setMlf ml => decide (0 < ml)

end HashMap

namespace HashMap

variable {K V : Type} [DecidableEq K] {α : Type}

theorem flatten_decomp (bs : List (List α)) (i : Nat) (h : i < bs.length) :
    bs.flatten = (bs.take i).flatten ++ (bs.getD i [] ++ (bs.drop (i + 1)).flatten) := by
  induction bs generalizing i with
  | nil => simp at h
  | cons b bs ih =>
    cases i with
    | zero => simp
    | succ i =>
      have h' : i < bs.length := by simpa using h
      simp only [List.flatten_cons, List.take_succ_cons, List.drop_succ_cons,
        List.getD_cons_succ]
      rw [ih _ h']
      simp [List.append_assoc]

theorem flatten_set_decomp (bs : List (List α)) (i : Nat) (l' : List α)
    (h : i < bs.length) :
    (bs.set i l').flatten =
      (bs.take i).flatten ++ (l' ++ (bs.drop (i + 1)).flatten) := by
  induction bs generalizing i with
  | nil => simp at h
  | cons b bs ih =>
    cases i with
    | zero => simp
    | succ i =>
      have h' : i < bs.length := by simpa using h
      simp only [List.set_cons_succ, List.flatten_cons, List.take_succ_cons,
        List.drop_succ_cons]
      rw [ih _ h']
      simp [List.append_assoc]

theorem getD_set_self {bs : List (List α)} (i : Nat) (l' : List α)
    (h : i < bs.length) : (bs.set i l').getD i [] = l' := by
  induction bs generalizing i with
  | nil => simp at h
  | cons b bs ih =>
    cases i with
    | zero => simp
    | succ i => simpa using ih i (by simpa using h)

theorem getD_set_ne {bs : List (List α)} (i j : Nat) (l' : List α)
    (h : j ≠ i) : (bs.set i l').getD j [] = bs.getD j [] := by
  induction bs generalizing i j with
  | nil => simp
  | cons b bs ih =>
    cases i with
    | zero =>
      cases j with
      | zero => exact absurd rfl h
      | succ j => simp
    | succ i =>
      cases j with
      | zero => simp
      | succ j => simpa using ih i j (by omega)

theorem flatten_push_perm (bs : List (List α)) (i : Nat) (e : α)
    (h : i < bs.length) :
    List.Perm (bs.set i (bs.getD i [] ++ [e])).flatten (bs.flatten ++ [e]) := by
  rw [flatten_set_decomp bs i _ h]
  conv_rhs => rw [flatten_decomp bs i h]
  simp only [List.append_assoc]
  exact List.Perm.append_left _ (List.Perm.append_left _ List.perm_append_comm)

theorem mem_flatten_of_mem_getD {bs : List (List α)} {i : Nat} {e : α}
    (h : i < bs.length) (he : e ∈ bs.getD i []) : e ∈ bs.flatten := by
  rw [flatten_decomp bs i h]
  simp only [List.mem_append]
  exact Or.inr (Or.inl he)

theorem exists_getD_of_mem_flatten {bs : List (List α)} {e : α}
    (h : e ∈ bs.flatten) : ∃ i, i < bs.length ∧ e ∈ bs.getD i [] := by
  rw [List.mem_flatten] at h
  obtain ⟨l, hl, hel⟩ := h
  obtain ⟨i, hi, rfl⟩ := List.mem_iff_getElem.mp hl
  refine ⟨i, hi, ?_⟩
  rwa [List.getD_eq_getElem?_getD, List.getElem?_eq_getElem hi]

theorem flatten_replicate_nil (n : Nat) :
    (List.replicate n ([] : List α)).flatten = [] := by
  induction n with
  | zero => rfl
  | succ n ih => simp [ih]

theorem getD_replicate_nil (n i : Nat) :
    (List.replicate n ([] : List α)).getD i [] = [] := by
  rw [List.getD_eq_getElem?_getD]
  rcases Nat.lt_or_ge i n with h | h
  · rw [List.getElem?_eq_getElem (by simpa using h)]
    simp
  · rw [List.getElem?_eq_none (by simpa using h)]
    rfl

theorem dropLast_eq_eraseIdx_last : ∀ (b : List α), b.dropLast = b.eraseIdx (b.length - 1)
  | [] => rfl
  | [_] => rfl
  | a :: b :: bs => by
    have ih := dropLast_eq_eraseIdx_last (b :: bs)
    simp only [List.length_cons, Nat.add_sub_cancel] at ih ⊢
    rw [List.dropLast_cons₂, List.eraseIdx_cons_succ, ih]

end HashMap

namespace HashMap

variable {K V : Type} [DecidableEq K] {α : Type}

theorem eq_take_cons_drop (l : List α) (i : Nat) (h : i < l.length) :
    l = l.take i ++ l.get ⟨i, h⟩ :: l.drop (i + 1) := by
  conv_lhs => rw [← List.take_append_drop i l]
  rw [List.drop_eq_getElem_cons h]
  rfl

theorem set_eq_take_cons_drop (l : List α) (i : Nat) (a : α) (h : i < l.length) :
    l.set i a = l.take i ++ a :: l.drop (i + 1) := by
  induction l generalizing i with
  | nil => simp at h
  | cons x xs ih =>
    cases i with
    | zero => simp
    | succ i => simp [ih i (by simpa using h)]

theorem eraseIdx_concat_get_perm (l : List α) (i : Nat) (h : i < l.length) :
    List.Perm (l.eraseIdx i ++ [l.get ⟨i, h⟩]) l := by
  rw [List.eraseIdx_eq_take_drop_succ]
  conv_rhs => rw [eq_take_cons_drop l i h]
  rw [List.append_assoc]
  exact List.Perm.append_left _ List.perm_append_comm

theorem eraseSwap_perm (b : List (Entry K V)) (i : Nat) (h : i < b.length) :
    List.Perm (eraseSwap b i) (b.eraseIdx i) := by
  have hne : b ≠ [] := List.ne_nil_of_length_pos (Nat.lt_of_le_of_lt (Nat.zero_le _) h)
  rw [eraseSwap, List.getLast?_eq_getLast_of_ne_nil hne]
  dsimp only
  by_cases hlast : i + 1 = b.length
  · rw [if_pos hlast, dropLast_eq_eraseIdx_last]
    have hi : b.length - 1 = i := by omega
    rw [hi]
  · rw [if_neg hlast]
    have hi1 : i + 1 < b.length := by omega
    have hD : b.drop (i + 1) ≠ [] := by
      apply List.ne_nil_of_length_pos
      rw [List.length_drop]
      omega
    have hsplit : b.take (i + 1) ++ b.drop (i + 1) = b := List.take_append_drop _ _
    have hlasteq : b.getLast hne = (b.drop (i + 1)).getLast hD := by
      have hq : b.getLast? = (b.drop (i + 1)).getLast? := by
        conv_lhs => rw [← hsplit]
        rw [List.getLast?_append, List.getLast?_eq_getLast_of_ne_nil hD]
        rfl
      rw [List.getLast?_eq_getLast_of_ne_nil hne,
        List.getLast?_eq_getLast_of_ne_nil hD] at hq
      exact Option.some.inj hq
    rw [set_eq_take_cons_drop b i _ h,
      List.dropLast_append_of_ne_nil _ (List.cons_ne_nil _ _),
      List.dropLast_cons_of_ne_nil hD, List.eraseIdx_eq_take_drop_succ]
    refine List.Perm.append_left _ ?_
    have hconcat : (b.drop (i + 1)).dropLast ++ [(b.drop (i + 1)).getLast hD] =
        b.drop (i + 1) := List.dropLast_concat_getLast hD
    refine List.Perm.trans
      (@List.perm_append_comm _ [b.getLast hne] ((b.drop (i + 1)).dropLast)) ?_
    rw [hlasteq, hconcat]

theorem eraseSwap_length (b : List (Entry K V)) (i : Nat) (h : i < b.length) :
    (eraseSwap b i).length + 1 = b.length := by
  rw [(eraseSwap_perm b i h).length_eq, List.length_eraseIdx_of_lt h]
  omega

theorem eraseSwap_subset (b : List (Entry K V)) (i : Nat) (h : i < b.length) :
    ∀ e ∈ eraseSwap b i, e ∈ b :=
  fun e he => List.eraseIdx_subset b i ((eraseSwap_perm b i h).mem_iff.mp he)

theorem foldl_push_length (hash : K → Nat) (n : Nat) :
    ∀ (es : List (Entry K V)) (bs : List (List (Entry K V))),
      (es.foldl (fun bs e => bucketsPush bs (hash e.key % n) e) bs).length = bs.length
  | [], _ => rfl
  | e :: es, bs => by
    rw [List.foldl_cons, foldl_push_length hash n es]
    simp [bucketsPush]

theorem foldl_push_flatten_perm (hash : K → Nat) (n : Nat) (hn : 0 < n) :
    ∀ (es : List (Entry K V)) (bs : List (List (Entry K V))), bs.length = n →
      List.Perm (es.foldl (fun bs e => bucketsPush bs (hash e.key % n) e) bs).flatten
        (bs.flatten ++ es)
  | [], bs, _ => by simp
  | e :: es, bs, h => by
    rw [List.foldl_cons]
    have hlen : (bucketsPush bs (hash e.key % n) e).length = n := by
      simp [bucketsPush, h]
    have ih := foldl_push_flatten_perm hash n hn es _ hlen
    refine ih.trans ?_
    have hidx : hash e.key % n < bs.length := by rw [h]; exact Nat.mod_lt _ hn
    have hpp := flatten_push_perm bs (hash e.key % n) e hidx
    refine ((hpp.append_right es).trans ?_)
    rw [List.append_assoc, List.singleton_append]

theorem foldl_push_placement (hash : K → Nat) (n : Nat) :
    ∀ (es : List (Entry K V)) (bs : List (List (Entry K V))),
      (∀ i, i < n → ∀ e ∈ bs.getD i [], hash e.key % n = i) →
      ∀ i, i < n →
        ∀ e ∈ (es.foldl (fun bs e => bucketsPush bs (hash e.key % n) e) bs).getD i [],
          hash e.key % n = i
  | [], _, hinv => hinv
  | e :: es, bs, hinv => by
    rw [List.foldl_cons]
    refine foldl_push_placement hash n es _ ?_
    intro i hi e' he'
    rw [bucketsPush] at he'
    by_cases hij : i = hash e.key % n
    · rcases Nat.lt_or_ge (hash e.key % n) bs.length with hlt | hge
      · rw [hij, getD_set_self _ _ hlt] at he'
        rw [hij]
        rcases List.mem_append.mp he' with hold | hnew
        · exact hinv _ (hij ▸ hi) e' hold
        · rw [List.mem_singleton.mp hnew]
      · rw [List.set_eq_of_length_le hge] at he'
        exact hinv i hi e' he'
    · rw [getD_set_ne _ _ _ hij] at he'
      exact hinv i hi e' he'

end HashMap

namespace HashMap

variable {K V : Type} [DecidableEq K]

theorem nodup_key_inj {hash : K → Nat} {m : HashMap K V} (hwf : WF hash m)
    {e e' : Entry K V} (he : e ∈ entriesOf m) (he' : e' ∈ entriesOf m)
    (hk : e.key = e'.key) : e = e' :=
  List.inj_on_of_nodup_map hwf.2.2.2 he he' hk

theorem mem_target_bucket {hash : K → Nat} {m : HashMap K V} (hwf : WF hash m)
    (hbc : 0 < m.bucket_count) {k : K} {e : Entry K V}
    (he : e ∈ entriesOf m) (hk : e.key = k) :
    e ∈ m.buckets.getD (hash k % m.bucket_count) [] := by
  obtain ⟨i, hi, hib⟩ := exists_getD_of_mem_flatten he
  have hip : i < m.bucket_count := hwf.1 ▸ hi
  have hplace := hwf.2.2.1 i hip e hib
  rw [hk] at hplace
  rw [hplace]
  exact hib

theorem not_mem_of_bucket_miss {hash : K → Nat} {m : HashMap K V} (hwf : WF hash m)
    (hbc : 0 < m.bucket_count) {k : K}
    (hmiss : ∀ e ∈ m.buckets.getD (hash k % m.bucket_count) [], e.key ≠ k) :
    ∀ e ∈ entriesOf m, e.key ≠ k :=
  fun e he hk => hmiss e (mem_target_bucket hwf hbc he hk) hk

theorem find_entry_ok (hash : K → Nat) {m : HashMap K V} (hbc : 0 < m.bucket_count)
    (k : K) :
    find_entry hash m k =
      .ok ((m.buckets.getD (hash k % m.bucket_count) []).find?
        (fun e => decide (e.key = k))) := by
  rw [find_entry, hash_func, if_neg (Nat.pos_iff_ne_zero.mp hbc)]

theorem target_bucket_lt {hash : K → Nat} {m : HashMap K V} (hwf : WF hash m)
    (hbc : 0 < m.bucket_count) (k : K) :
    hash k % m.bucket_count < m.buckets.length := by
  rw [hwf.1]
  exact Nat.mod_lt _ hbc

theorem find_entry_some_iff {hash : K → Nat} {m : HashMap K V} (hwf : WF hash m)
    (hbc : 0 < m.bucket_count) {k : K} {e : Entry K V} :
    find_entry hash m k = .ok (some e) ↔ e ∈ entriesOf m ∧ e.key = k := by
  rw [find_entry_ok hash hbc]
  constructor
  · intro h
    have h' : (m.buckets.getD (hash k % m.bucket_count) []).find?
        (fun e => decide (e.key = k)) = some e := by simpa using h
    have hkey : e.key = k := by simpa using List.find?_some h'
    have hmem := List.mem_of_find?_eq_some h'
    exact ⟨mem_flatten_of_mem_getD (target_bucket_lt hwf hbc k) hmem, hkey⟩
  · rintro ⟨hmem, hkey⟩
    have hb := mem_target_bucket hwf hbc hmem hkey
    have hsome : ∃ x, x ∈ m.buckets.getD (hash k % m.bucket_count) [] ∧
        (fun e => decide (e.key = k)) x = true := ⟨e, hb, by simp [hkey]⟩
    obtain ⟨e', he'⟩ := Option.isSome_iff_exists.mp (List.find?_isSome.mpr hsome)
    have hkey' : e'.key = k := by simpa using List.find?_some he'
    have hmem' := List.mem_of_find?_eq_some he'
    have hee : e' = e := nodup_key_inj hwf
      (mem_flatten_of_mem_getD (target_bucket_lt hwf hbc k) hmem') hmem
      (by rw [hkey', hkey])
    rw [he', hee]

theorem find_entry_none_iff {hash : K → Nat} {m : HashMap K V} (hwf : WF hash m)
    (hbc : 0 < m.bucket_count) {k : K} :
    find_entry hash m k = .ok none ↔ ∀ e ∈ entriesOf m, e.key ≠ k := by
  rw [find_entry_ok hash hbc]
  constructor
  · intro h
    have h' : (m.buckets.getD (hash k % m.bucket_count) []).find?
        (fun e => decide (e.key = k)) = none := by simpa using h
    rw [List.find?_eq_none] at h'
    refine not_mem_of_bucket_miss hwf hbc ?_
    intro e he
    have := h' e he
    simpa using this
  · intro h
    have hall : ∀ x ∈ m.buckets.getD (hash k % m.bucket_count) [],
        ¬((fun e => decide (e.key = k)) x = true) := by
      intro x hx
      have hxm : x ∈ entriesOf m :=
        mem_flatten_of_mem_getD (target_bucket_lt hwf hbc k) hx
      simpa using h x hxm
    rw [List.find?_eq_none.mpr hall]

theorem contains_eq (hash : K → Nat) {m : HashMap K V} (hbc : 0 < m.bucket_count)
    (k : K) :
    contains hash m k =
      .ok (((m.buckets.getD (hash k % m.bucket_count) []).find?
        (fun e => decide (e.key = k))).isSome) := by
  rw [contains, find_entry_ok hash hbc]

theorem contains_true_iff {hash : K → Nat} {m : HashMap K V} (hwf : WF hash m)
    (hbc : 0 < m.bucket_count) {k : K} :
    contains hash m k = .ok true ↔ ∃ e ∈ entriesOf m, e.key = k := by
  rw [contains_eq hash hbc]
  rcases hX : (m.buckets.getD (hash k % m.bucket_count) []).find?
      (fun e => decide (e.key = k)) with _ | e
  · rw [hX]
    constructor
    · intro h; simp at h
    · rintro ⟨e, he, hk⟩
      have := (find_entry_none_iff hwf hbc).mp (by rw [find_entry_ok hash hbc, hX])
      exact absurd hk (this e he)
  · rw [hX]
    constructor
    · intro _
      have := (find_entry_some_iff hwf hbc).mp (by rw [find_entry_ok hash hbc, hX])
      exact ⟨e, this.1, this.2⟩
    · intro _; rfl

theorem contains_false_iff {hash : K → Nat} {m : HashMap K V} (hwf : WF hash m)
    (hbc : 0 < m.bucket_count) {k : K} :
    contains hash m k = .ok false ↔ ∀ e ∈ entriesOf m, e.key ≠ k := by
  rw [contains_eq hash hbc]
  rcases hX : (m.buckets.getD (hash k % m.bucket_count) []).find?
      (fun e => decide (e.key = k)) with _ | e
  · rw [hX]
    constructor
    · intro _
      exact (find_entry_none_iff hwf hbc).mp (by rw [find_entry_ok hash hbc, hX])
    · intro _; rfl
  · rw [hX]
    constructor
    · intro h; simp at h
    · intro h
      have := (find_entry_some_iff hwf hbc).mp (by rw [find_entry_ok hash hbc, hX])
      exact absurd this.2 (h e this.1)

theorem atKey_ok_iff {hash : K → Nat} {m : HashMap K V} (hwf : WF hash m)
    (hbc : 0 < m.bucket_count) {k : K} {v : V} :
    atKey hash m k = .ok v ↔ Entry.mk k v ∈ entriesOf m := by
  rw [atKey, find_entry_ok hash hbc]
  rcases hX : (m.buckets.getD (hash k % m.bucket_count) []).find?
      (fun e => decide (e.key = k)) with _ | e
  · rw [hX]
    constructor
    · intro h; simp at h
    · intro hmem
      have := (find_entry_none_iff hwf hbc).mp (by rw [find_entry_ok hash hbc, hX])
      exact absurd rfl (this _ hmem)
  · rw [hX]
    have hse := (find_entry_some_iff hwf hbc).mp (by rw [find_entry_ok hash hbc, hX])
    constructor
    · intro h
      have hv : e.value = v := by simpa using h
      have hek : Entry.mk k v = e := by
        cases e
        cases hse.2
        cases hv
        rfl
      rw [hek]
      exact hse.1
    · intro hmem
      have hek : Entry.mk k v = e := nodup_key_inj hwf hmem hse.1 (by rw [hse.2])
      rw [← hek]

theorem atKey_keynotfound_iff {hash : K → Nat} {m : HashMap K V} (hwf : WF hash m)
    (hbc : 0 < m.bucket_count) {k : K} :
    atKey hash m k = .error .KeyNotFound ↔ ∀ e ∈ entriesOf m, e.key ≠ k := by
  rw [atKey, find_entry_ok hash hbc]
  rcases hX : (m.buckets.getD (hash k % m.bucket_count) []).find?
      (fun e => decide (e.key = k)) with _ | e
  · rw [hX]
    constructor
    · intro _
      exact (find_entry_none_iff hwf hbc).mp (by rw [find_entry_ok hash hbc, hX])
    · intro _; rfl
  · rw [hX]
    constructor
    · intro h; simp at h
    · intro h
      have := (find_entry_some_iff hwf hbc).mp (by rw [find_entry_ok hash hbc, hX])
      exact absurd this.2 (h e this.1)

end HashMap

namespace HashMap

variable {K V : Type} [DecidableEq K]

theorem rehash_cases (hash : K → Nat) (m : HashMap K V) (c : Nat) :
    ((if c < Nat.ceil ((m.entry_count : ℚ) / m.max_load_factor)
        then Nat.ceil ((m.entry_count : ℚ) / m.max_load_factor) else c) = m.bucket_count ∧
      rehash hash m c = m) ∨
    (∃ nb, nb = (if c < Nat.ceil ((m.entry_count : ℚ) / m.max_load_factor)
        then Nat.ceil ((m.entry_count : ℚ) / m.max_load_factor) else c) ∧
      nb ≠ m.bucket_count ∧
      rehash hash m c =
        { buckets := ((m.buckets.flatten).foldl
            (fun bs e => bucketsPush bs (hash e.key % nb) e) (List.replicate nb [])),
          bucket_count := nb, entry_count := m.entry_count,
          max_load_factor := m.max_load_factor }) := by
  by_cases h : (if c < Nat.ceil ((m.entry_count : ℚ) / m.max_load_factor)
      then Nat.ceil ((m.entry_count : ℚ) / m.max_load_factor) else c) = m.bucket_count
  · left
    exact ⟨h, by rw [rehash]; exact if_pos h⟩
  · right
    exact ⟨_, rfl, h, by rw [rehash]; exact if_neg h⟩

theorem target_zero_entries_nil {m : HashMap K V} {c : Nat}
    (hpos : 0 < c ∨ 0 < m.max_load_factor)
    (hec : m.entry_count = (entriesOf m).length)
    (hz : (if c < Nat.ceil ((m.entry_count : ℚ) / m.max_load_factor)
        then Nat.ceil ((m.entry_count : ℚ) / m.max_load_factor) else c) = 0) :
    entriesOf m = [] ∧ m.entry_count = 0 := by
  have hc0 : c = 0 := by
    by_cases hlt : c < Nat.ceil ((m.entry_count : ℚ) / m.max_load_factor)
    · rw [if_pos hlt] at hz
      omega
    · rwa [if_neg hlt] at hz
  have hmr0 : Nat.ceil ((m.entry_count : ℚ) / m.max_load_factor) = 0 := by
    by_cases hlt : c < Nat.ceil ((m.entry_count : ℚ) / m.max_load_factor)
    · rwa [if_pos hlt] at hz
    · omega
  have hmlf : 0 < m.max_load_factor := by
    rcases hpos with h | h
    · omega
    · exact h
  have hxle : ((m.entry_count : ℚ) / m.max_load_factor) ≤ 0 := Nat.ceil_eq_zero.mp hmr0
  have hec0 : m.entry_count = 0 := by
    by_contra hne
    have hpos' : (0 : ℚ) < (m.entry_count : ℚ) := by
      exact_mod_cast Nat.pos_of_ne_zero hne
    have := div_pos hpos' hmlf
    linarith
  refine ⟨?_, hec0⟩
  rw [hec0] at hec
  exact List.length_eq_zero.mp hec.symm

theorem rehash_perm (hash : K → Nat) {m : HashMap K V} (c : Nat)
    (hec : m.entry_count = (entriesOf m).length)
    (hpos : 0 < c ∨ 0 < m.max_load_factor) :
    List.Perm (entriesOf (rehash hash m c)) (entriesOf m) := by
  rcases rehash_cases hash m c with ⟨_, heq⟩ | ⟨nb, hnbeq, _, heq⟩
  · rw [heq]
  · rw [heq]
    by_cases hz : nb = 0
    · have hnil := (target_zero_entries_nil hpos hec (hnbeq ▸ hz)).1
      rw [entriesOf] at hnil
      simp [entriesOf, hnil, hz]
    · have hn : 0 < nb := Nat.pos_of_ne_zero hz
      have hfold := foldl_push_flatten_perm hash nb hn m.buckets.flatten
        (List.replicate nb []) (by simp)
      show List.Perm (List.foldl (fun bs e => bucketsPush bs (hash e.key % nb) e)
        (List.replicate nb []) m.buckets.flatten).flatten (entriesOf m)
      refine hfold.trans ?_
      rw [flatten_replicate_nil, List.nil_append, entriesOf]

theorem rehash_WF (hash : K → Nat) {m : HashMap K V} (c : Nat) (hwf : WF hash m)
    (hpos : 0 < c ∨ 0 < m.max_load_factor) :
    WF hash (rehash hash m c) := by
  have hperm := rehash_perm hash c hwf.2.1 hpos
  rcases rehash_cases hash m c with ⟨_, heq⟩ | ⟨nb, hnbeq, _, heq⟩
  · rwa [heq]
  · rw [heq] at hperm ⊢
    simp only [entriesOf] at hperm
    simp only [WF, entriesOf]
    by_cases hz : nb = 0
    · obtain ⟨hnil, hec0⟩ := target_zero_entries_nil hpos hwf.2.1 (hnbeq ▸ hz)
      rw [entriesOf] at hnil
      refine ⟨?_, ?_, ?_, ?_⟩
      · rw [hnil]
        simp [hz]
      · rw [hnil]
        simp [hz, hec0]
      · intro i hi
        omega
      · rw [hnil]
        simp [hz]
    · have hn : 0 < nb := Nat.pos_of_ne_zero hz
      refine ⟨?_, ?_, ?_, ?_⟩
      · rw [foldl_push_length hash nb]
        simp
      · rw [hwf.2.1, entriesOf, hperm.length_eq]
      · refine foldl_push_placement hash nb m.buckets.flatten _ ?_
        intro i _ e he
        rw [getD_replicate_nil] at he
        exact absurd he (List.not_mem_nil e)
      · refine ((hperm.map Entry.key).nodup_iff).mpr ?_
        exact hwf.2.2.2

theorem rehash_entry_count (hash : K → Nat) (m : HashMap K V) (c : Nat) :
    (rehash hash m c).entry_count = m.entry_count := by
  rcases rehash_cases hash m c with ⟨_, heq⟩ | ⟨nb, _, _, heq⟩ <;> rw [heq]

theorem rehash_max_load_factor (hash : K → Nat) (m : HashMap K V) (c : Nat) :
    (rehash hash m c).max_load_factor = m.max_load_factor := by
  rcases rehash_cases hash m c with ⟨_, heq⟩ | ⟨nb, _, _, heq⟩ <;> rw [heq]

theorem rehash_bucket_count (hash : K → Nat) (m : HashMap K V) (c : Nat) :
    (rehash hash m c).bucket_count =
      (if c < Nat.ceil ((m.entry_count : ℚ) / m.max_load_factor)
        then Nat.ceil ((m.entry_count : ℚ) / m.max_load_factor) else c) := by
  rcases rehash_cases hash m c with ⟨hnb, heq⟩ | ⟨nb, hnbeq, _, heq⟩
  · rw [heq, hnb]
  · rw [heq, hnbeq]

theorem rehash_bc_pos (hash : K → Nat) (m : HashMap K V) {c : Nat} (hc : 0 < c) :
    0 < (rehash hash m c).bucket_count := by
  rw [rehash_bucket_count]
  split
  · omega
  · exact hc

theorem rehash_placement (hash : K → Nat) {m : HashMap K V} {c : Nat}
    (hne : (if c < Nat.ceil ((m.entry_count : ℚ) / m.max_load_factor)
        then Nat.ceil ((m.entry_count : ℚ) / m.max_load_factor) else c) ≠ m.bucket_count) :
    ∀ i, i < (rehash hash m c).bucket_count →
      ∀ e ∈ (rehash hash m c).buckets.getD i [],
        hash e.key % (rehash hash m c).bucket_count = i := by
  rcases rehash_cases hash m c with ⟨hnb, _⟩ | ⟨nb, hnbeq, _, heq⟩
  · exact absurd hnb hne
  · rw [heq]
    refine foldl_push_placement hash nb m.buckets.flatten _ ?_
    intro i _ e he
    rw [getD_replicate_nil] at he
    exact absurd he (List.not_mem_nil e)

end HashMap

namespace HashMap

variable {K V : Type} [DecidableEq K]

theorem overwriteValue_map_key (b : List (Entry K V)) (k : K) (v : V) :
    (overwriteValue b k v).map Entry.key = b.map Entry.key := by
  induction b with
  | nil => rfl
  | cons e es ih =>
    rw [overwriteValue]
    by_cases h : e.key = k
    · rw [if_pos h]
      simp
    · rw [if_neg h]
      simp [ih]

theorem overwriteValue_length (b : List (Entry K V)) (k : K) (v : V) :
    (overwriteValue b k v).length = b.length := by
  have h := congrArg List.length (overwriteValue_map_key b k v)
  simpa using h

theorem mem_overwriteValue_self {b : List (Entry K V)} {k : K} (v : V)
    (h : ∃ e ∈ b, e.key = k) : Entry.mk k v ∈ overwriteValue b k v := by
  induction b with
  | nil =>
    obtain ⟨e, he, _⟩ := h
    exact absurd he (List.not_mem_nil e)
  | cons e es ih =>
    rw [overwriteValue]
    by_cases hk : e.key = k
    · rw [if_pos hk, hk]
      exact List.mem_cons_self _ _
    · rw [if_neg hk]
      obtain ⟨e', he', hk'⟩ := h
      rcases List.mem_cons.mp he' with rfl | hmem
      · exact absurd hk' hk
      · exact List.mem_cons_of_mem _ (ih ⟨e', hmem, hk'⟩)

theorem mem_overwriteValue_of_ne {b : List (Entry K V)} {k : K} {v : V}
    {e' : Entry K V} (he : e' ∈ b) (hne : e'.key ≠ k) :
    e' ∈ overwriteValue b k v := by
  induction b with
  | nil => exact absurd he (List.not_mem_nil e')
  | cons e es ih =>
    rw [overwriteValue]
    rcases List.mem_cons.mp he with rfl | hmem
    · rw [if_neg hne]
      exact List.mem_cons_self _ _
    · by_cases h : e.key = k
      · rw [if_pos h]
        exact List.mem_cons_of_mem _ hmem
      · rw [if_neg h]
        exact List.mem_cons_of_mem _ (ih hmem)

theorem not_any_global {hash : K → Nat} {m : HashMap K V} (hwf : WF hash m)
    (hbc : 0 < m.bucket_count) {k : K}
    (h : ((m.buckets.getD (hash k % m.bucket_count) []).any
      (fun e => decide (e.key = k))) = false) :
    ∀ e ∈ entriesOf m, e.key ≠ k := by
  refine not_mem_of_bucket_miss hwf hbc ?_
  intro e he
  have := List.any_eq_false.mp h e he
  simpa using this

theorem insert_cases (hash : K → Nat) (m : HashMap K V) (k : K) (v : V)
    (hbc : 0 < m.bucket_count) :
    ((m.buckets.getD (hash k % m.bucket_count) []).any
        (fun e => decide (e.key = k)) = true ∧
      insert hash m k v = .ok { m with
        buckets := (m.buckets.set (hash k % m.bucket_count)
          (overwriteValue (m.buckets.getD (hash k % m.bucket_count) []) k v)) }) ∨
    ((m.buckets.getD (hash k % m.bucket_count) []).any
        (fun e => decide (e.key = k)) = false ∧
      ∃ m₁, m₁ = { m with
          buckets := (m.buckets.set (hash k % m.bucket_count)
            ((m.buckets.getD (hash k % m.bucket_count) []) ++ [Entry.mk k v])),
          entry_count := m.entry_count + 1 } ∧
        ((load_factor m₁ > m.max_load_factor ∧
          insert hash m k v = .ok (rehash hash m₁ (m.bucket_count * 2))) ∨
         (¬(load_factor m₁ > m.max_load_factor) ∧
          insert hash m k v = .ok m₁))) := by
  rw [insert, hash_func, if_neg (Nat.pos_iff_ne_zero.mp hbc)]
  dsimp only
  by_cases hany : (m.buckets.getD (hash k % m.bucket_count) []).any
      (fun e => decide (e.key = k)) = true
  · left
    exact ⟨hany, by rw [if_pos hany]⟩
  · right
    refine ⟨by simpa using hany, ⟨_, rfl, ?_⟩⟩
    rw [if_neg hany]
    by_cases hl : load_factor { m with
        buckets := (m.buckets.set (hash k % m.bucket_count)
          ((m.buckets.getD (hash k % m.bucket_count) []) ++ [Entry.mk k v])),
        entry_count := m.entry_count + 1 } > m.max_load_factor
    · left
      exact ⟨hl, by rw [if_pos hl]⟩
    · right
      exact ⟨hl, by rw [if_neg hl]⟩

end HashMap

namespace HashMap

variable {K V : Type} [DecidableEq K]

theorem insert_spec {hash : K → Nat} {m : HashMap K V} (hwf : WF hash m)
    (hbc : 0 < m.bucket_count) (k : K) (v : V) :
    ∃ m', insert hash m k v = .ok m' ∧ WF hash m' ∧ 0 < m'.bucket_count ∧
      m'.max_load_factor = m.max_load_factor ∧
      Entry.mk k v ∈ entriesOf m' ∧
      (∀ e ∈ entriesOf m, e.key ≠ k → e ∈ entriesOf m') ∧
      ((∃ e ∈ entriesOf m, e.key = k) → m'.entry_count = m.entry_count) ∧
      ((∀ e ∈ entriesOf m, e.key ≠ k) →
        m'.entry_count = m.entry_count + 1 ∧
        List.Perm (entriesOf m') (entriesOf m ++ [Entry.mk k v])) := by
  have hlt : hash k % m.bucket_count < m.buckets.length := target_bucket_lt hwf hbc k
  rcases insert_cases hash m k v hbc with ⟨hany, heq⟩ | ⟨hany, m₁, hm₁, hrest⟩
  · obtain ⟨e₀, he₀, hk₀⟩ : ∃ e ∈ m.buckets.getD (hash k % m.bucket_count) [],
        e.key = k := by
      obtain ⟨x, hx, hpx⟩ := List.any_eq_true.mp hany
      exact ⟨x, hx, by simpa using hpx⟩
    set idx := hash k % m.bucket_count with hidxdef
    set ow := overwriteValue (m.buckets.getD idx []) k v with howdef
    have hkeys : ((m.buckets.set idx ow).flatten.map Entry.key) =
        (m.buckets.flatten.map Entry.key) := by
      rw [flatten_set_decomp _ idx _ hlt, flatten_decomp m.buckets idx hlt]
      simp only [List.map_append]
      rw [howdef, overwriteValue_map_key]
    have hlen : (m.buckets.set idx ow).flatten.length = m.buckets.flatten.length := by
      rw [← List.length_map (m.buckets.set idx ow).flatten Entry.key, hkeys,
        List.length_map]
    refine ⟨_, heq, ⟨?_, ?_, ?_, ?_⟩, hbc, rfl, ?_, ?_, ?_, ?_⟩
    · show (m.buckets.set idx ow).length = m.bucket_count
      simp [hwf.1]
    · show m.entry_count = (m.buckets.set idx ow).flatten.length
      rw [hlen]
      exact hwf.2.1
    · show ∀ i, i < m.bucket_count →
        ∀ e ∈ (m.buckets.set idx ow).getD i [], hash e.key % m.bucket_count = i
      intro i hi e he
      by_cases hij : i = idx
      · rw [hij, getD_set_self _ _ hlt] at he
        have hkmem : e.key ∈ (m.buckets.getD idx []).map Entry.key := by
          rw [← overwriteValue_map_key (m.buckets.getD idx []) k v, ← howdef]
          exact List.mem_map_of_mem _ he
        obtain ⟨e₁, he₁, hkey₁⟩ := List.mem_map.mp hkmem
        have hp := hwf.2.2.1 idx (hij ▸ hi) e₁ he₁
        rw [hkey₁] at hp
        rw [hij]
        exact hp
      · rw [getD_set_ne _ _ _ hij] at he
        exact hwf.2.2.1 i hi e he
    · show ((m.buckets.set idx ow).flatten.map Entry.key).Nodup
      rw [hkeys]
      exact hwf.2.2.2
    · show Entry.mk k v ∈ (m.buckets.set idx ow).flatten
      refine mem_flatten_of_mem_getD (i := idx) (by simpa using hlt) ?_
      rw [getD_set_self _ _ hlt]
      exact mem_overwriteValue_self v ⟨e₀, he₀, hk₀⟩
    · intro e he hne
      obtain ⟨j, hj, hjb⟩ := exists_getD_of_mem_flatten he
      show e ∈ (m.buckets.set idx ow).flatten
      by_cases hij : j = idx
      · refine mem_flatten_of_mem_getD (i := idx) (by simpa using hlt) ?_
        rw [getD_set_self _ _ hlt, howdef]
        exact mem_overwriteValue_of_ne (hij ▸ hjb) hne
      · refine mem_flatten_of_mem_getD (i := j) (by simpa using hj) ?_
        rw [getD_set_ne _ _ _ hij]
        exact hjb
    · intro _
      rfl
    · intro habs
      exact absurd hk₀ (habs e₀ (mem_flatten_of_mem_getD hlt he₀))
  · subst hm₁
    have habs : ∀ e ∈ entriesOf m, e.key ≠ k :=
      not_any_global hwf hbc hany
    have hperm₁ : List.Perm
        (m.buckets.set (hash k % m.bucket_count)
          ((m.buckets.getD (hash k % m.bucket_count) []) ++ [Entry.mk k v])).flatten
        (m.buckets.flatten ++ [Entry.mk k v]) :=
      flatten_push_perm m.buckets _ _ hlt
    have hknotin : k ∉ m.buckets.flatten.map Entry.key := by
      intro hk
      obtain ⟨e₂, he₂, hke₂⟩ := List.mem_map.mp hk
      exact absurd hke₂ (habs e₂ he₂)
    have hw₁ : WF hash { m with
        buckets := (m.buckets.set (hash k % m.bucket_count)
          ((m.buckets.getD (hash k % m.bucket_count) []) ++ [Entry.mk k v])),
        entry_count := m.entry_count + 1 } := by
      refine ⟨?_, ?_, ?_, ?_⟩
      · show (m.buckets.set _ _).length = m.bucket_count
        simp [hwf.1]
      · show m.entry_count + 1 = (m.buckets.set _ _).flatten.length
        rw [hperm₁.length_eq, List.length_append, List.length_singleton, hwf.2.1]
        rfl
      · show ∀ i, i < m.bucket_count → ∀ e ∈ (m.buckets.set _ _).getD i [],
          hash e.key % m.bucket_count = i
        intro i hi e he
        by_cases hij : i = hash k % m.bucket_count
        · rw [hij, getD_set_self _ _ hlt] at he
          rcases List.mem_append.mp he with hold | hnew
          · rw [hij]
            exact hwf.2.2.1 _ (hij ▸ hi) e hold
          · rw [List.mem_singleton.mp hnew, hij]
        · rw [getD_set_ne _ _ _ hij] at he
          exact hwf.2.2.1 i hi e he
      · show ((m.buckets.set _ _).flatten.map Entry.key).Nodup
        refine ((hperm₁.map Entry.key).nodup_iff).mpr ?_
        rw [List.map_append]
        rw [List.nodup_append]
        refine ⟨hwf.2.2.2, List.nodup_singleton _, ?_⟩
        intro a ha hak
        rw [List.map_singleton, List.mem_singleton] at hak
        rw [hak] at ha
        exact hknotin ha
    rcases hrest with ⟨hl, heq⟩ | ⟨hl, heq⟩
    · have hposc : 0 < m.bucket_count * 2 := by omega
      have hperm' := rehash_perm hash (m.bucket_count * 2) hw₁.2.1 (Or.inl hposc)
      have hpermall : List.Perm
          (entriesOf (rehash hash { m with
            buckets := (m.buckets.set (hash k % m.bucket_count)
              ((m.buckets.getD (hash k % m.bucket_count) []) ++ [Entry.mk k v])),
            entry_count := m.entry_count + 1 } (m.bucket_count * 2)))
          (entriesOf m ++ [Entry.mk k v]) :=
        hperm'.trans hperm₁
      refine ⟨_, heq, rehash_WF hash _ hw₁ (Or.inl hposc),
        rehash_bc_pos hash _ hposc, by rw [rehash_max_load_factor], ?_, ?_, ?_, ?_⟩
      · exact hpermall.mem_iff.mpr (List.mem_append.mpr (Or.inr (List.mem_singleton.mpr rfl)))
      · intro e he _
        exact hpermall.mem_iff.mpr (List.mem_append.mpr (Or.inl he))
      · intro hex
        obtain ⟨e, he, hke⟩ := hex
        exact absurd hke (habs e he)
      · intro _
        refine ⟨?_, hpermall⟩
        rw [rehash_entry_count]
    · refine ⟨_, heq, hw₁, hbc, rfl, ?_, ?_, ?_, ?_⟩
      · exact hperm₁.mem_iff.mpr (List.mem_append.mpr (Or.inr (List.mem_singleton.mpr rfl)))
      · intro e he _
        exact hperm₁.mem_iff.mpr (List.mem_append.mpr (Or.inl he))
      · intro hex
        obtain ⟨e, he, hke⟩ := hex
        exact absurd hke (habs e he)
      · intro _
        exact ⟨rfl, hperm₁⟩

end HashMap

namespace HashMap

variable {K V : Type} [DecidableEq K]

theorem erase_key_cases (hash : K → Nat) (m : HashMap K V) (k : K)
    (hbc : 0 < m.bucket_count) :
    ((m.buckets.getD (hash k % m.bucket_count) []).findIdx?
        (fun e => decide (e.key = k)) = none ∧ erase_key hash m k = .ok (0, m)) ∨
    (∃ i, (m.buckets.getD (hash k % m.bucket_count) []).findIdx?
        (fun e => decide (e.key = k)) = some i ∧
      erase_key hash m k = .ok (1, { m with
        buckets := (m.buckets.set (hash k % m.bucket_count)
          (eraseSwap (m.buckets.getD (hash k % m.bucket_count) []) i)),
        entry_count := m.entry_count - 1 })) := by
  rw [erase_key, hash_func, if_neg (Nat.pos_iff_ne_zero.mp hbc)]
  dsimp only
  rcases hF : (m.buckets.getD (hash k % m.bucket_count) []).findIdx?
      (fun e => decide (e.key = k)) with _ | i
  · left
    exact ⟨hF, by rw [hF]⟩
  · right
    exact ⟨i, hF, by rw [hF]⟩

theorem erase_at_spec {hash : K → Nat} {m : HashMap K V} (hwf : WF hash m)
    (idx i : Nat) (hidx : idx < m.bucket_count)
    (hi : i < (m.buckets.getD idx []).length) :
    ∀ e, e = (m.buckets.getD idx []).get ⟨i, hi⟩ →
    ∀ m', m' = { m with
        buckets := (m.buckets.set idx (eraseSwap (m.buckets.getD idx []) i)),
        entry_count := m.entry_count - 1 } →
      WF hash m' ∧ m'.entry_count + 1 = m.entry_count ∧
      List.Perm (entriesOf m' ++ [e]) (entriesOf m) ∧
      contains hash m' e.key = .ok false := by
  intro e he m' hm'
  have hltb : idx < m.buckets.length := hwf.1 ▸ hidx
  have hpermB : List.Perm (eraseSwap (m.buckets.getD idx []) i)
      ((m.buckets.getD idx []).eraseIdx i) := eraseSwap_perm _ _ hi
  have hmemE : e ∈ entriesOf m := by
    rw [he]
    exact mem_flatten_of_mem_getD hltb (List.get_mem _ _ hi)
  have hperm : List.Perm (entriesOf m' ++ [e]) (entriesOf m) := by
    rw [hm']
    show List.Perm ((m.buckets.set idx (eraseSwap (m.buckets.getD idx []) i)).flatten
      ++ [e]) (entriesOf m)
    rw [flatten_set_decomp _ idx _ hltb]
    rw [entriesOf, flatten_decomp m.buckets idx hltb]
    simp only [List.append_assoc]
    refine List.Perm.append_left _ ?_
    refine List.Perm.trans (List.Perm.append_left _
      (@List.perm_append_comm _ ((m.buckets.drop (idx + 1)).flatten) [e])) ?_
    have h1 : List.Perm (eraseSwap (m.buckets.getD idx []) i ++ [e])
        (m.buckets.getD idx []) := by
      rw [he]
      exact (hpermB.append_right _).trans (eraseIdx_concat_get_perm _ i hi)
    have h2 := h1.append_right (m.buckets.drop (idx + 1)).flatten
    simpa [List.append_assoc] using h2
  have hknodup : ((entriesOf m' ++ [e]).map Entry.key).Nodup :=
    ((hperm.map Entry.key).nodup_iff).mpr hwf.2.2.2
  have hkdisj : e.key ∉ (entriesOf m').map Entry.key := by
    rw [List.map_append, List.map_singleton] at hknodup
    have := (List.nodup_append.mp hknodup).2.2
    intro hk
    exact this hk (List.mem_singleton.mpr rfl)
  have hecpos : 0 < m.entry_count := by
    rw [hwf.2.1]
    exact List.length_pos.mpr (List.ne_nil_of_mem hmemE)
  have hlen' : (entriesOf m').length + 1 = (entriesOf m).length := by
    have := hperm.length_eq
    rw [List.length_append, List.length_singleton] at this
    exact this
  have hwf' : WF hash m' := by
    rw [hm']
    refine ⟨?_, ?_, ?_, ?_⟩
    · show (m.buckets.set idx _).length = m.bucket_count
      simp [hwf.1]
    · show m.entry_count - 1 = (m.buckets.set idx _).flatten.length
      have hE : (entriesOf m').length =
          (m.buckets.set idx (eraseSwap (m.buckets.getD idx []) i)).flatten.length := by
        rw [hm']
        rfl
      rw [← hE]
      rw [hwf.2.1]
      omega
    · show ∀ j, j < m.bucket_count →
        ∀ e' ∈ (m.buckets.set idx _).getD j [], hash e'.key % m.bucket_count = j
      intro j hj e' he'
      by_cases hij : j = idx
      · rw [hij, getD_set_self _ _ hltb] at he'
        rw [hij]
        exact hwf.2.2.1 idx hidx e' (eraseSwap_subset _ i hi e' he')
      · rw [getD_set_ne _ _ _ hij] at he'
        exact hwf.2.2.1 j hj e' he'
    · show ((m.buckets.set idx _).flatten.map Entry.key).Nodup
      have : ((entriesOf m').map Entry.key).Nodup := by
        rw [List.map_append] at hknodup
        exact List.Nodup.of_append_left hknodup
      rw [hm'] at this
      exact this
  have hec : m'.entry_count + 1 = m.entry_count := by
    rw [hm']
    show m.entry_count - 1 + 1 = m.entry_count
    omega
  have hbc' : 0 < m'.bucket_count := by
    rw [hm']
    show 0 < m.bucket_count
    omega
  refine ⟨hwf', hec, hperm, ?_⟩
  rw [contains_false_iff hwf' hbc']
  intro e' he' hk
  exact hkdisj (by
    rw [← hk]
    exact List.mem_map_of_mem Entry.key he')

end HashMap

namespace HashMap

variable {K V : Type} [DecidableEq K]

theorem le_skipEmpty (m : HashMap K V) (b : Nat) : b ≤ skipEmpty m b := by
  have H : ∀ fuel b, m.bucket_count - b ≤ fuel → b ≤ skipEmpty m b := by
    intro fuel
    induction fuel with
    | zero =>
      intro b hb
      rw [skipEmpty]
      split
      · exfalso
        omega
      · omega
    | succ fuel ih =>
      intro b hb
      rw [skipEmpty]
      split
      · split
        · have h := ih (b + 1) (by omega)
          omega
        · omega
      · omega
  exact H (m.bucket_count - b) b (Nat.le_refl _)

theorem skipEmpty_le (m : HashMap K V) (b : Nat) (hb : b ≤ m.bucket_count) :
    skipEmpty m b ≤ m.bucket_count := by
  have H : ∀ fuel b, m.bucket_count - b ≤ fuel → b ≤ m.bucket_count →
      skipEmpty m b ≤ m.bucket_count := by
    intro fuel
    induction fuel with
    | zero =>
      intro b hb hble
      rw [skipEmpty]
      split
      · exfalso
        omega
      · omega
    | succ fuel ih =>
      intro b hb hble
      rw [skipEmpty]
      split
      · split
        · exact ih (b + 1) (by omega) (by omega)
        · omega
      · omega
  exact H (m.bucket_count - b) b (Nat.le_refl _) hb

theorem iterSucc_stay (m : HashMap K V) {it : Iterator}
    (h : m.bucket_count ≤ it.bucket_idx) : iterSucc m it = it := by
  rw [iterSucc, if_pos h]

theorem iterSucc_within (m : HashMap K V) {n k : Nat} (hn : n < m.bucket_count)
    (hk : k + 1 < (m.buckets.getD n []).length) :
    iterSucc m ⟨n, k⟩ = ⟨n, k + 1⟩ := by
  rw [iterSucc, if_neg (Nat.not_le.mpr hn)]
  dsimp only
  rw [if_pos ⟨hn, hk⟩]

theorem iterSucc_exit (m : HashMap K V) {n k : Nat} (hn : n < m.bucket_count)
    (hk : (m.buckets.getD n []).length ≤ k + 1) :
    iterSucc m ⟨n, k⟩ = ⟨skipEmpty m (n + 1), 0⟩ := by
  rw [iterSucc, if_neg (Nat.not_le.mpr hn)]
  dsimp only
  rw [if_neg (fun hcon => absurd hcon.2 (Nat.not_lt.mpr hk))]

theorem iterSucc_bucket_le (m : HashMap K V) (it : Iterator) :
    it.bucket_idx ≤ (iterSucc m it).bucket_idx := by
  rw [iterSucc]
  split
  · exact Nat.le_refl _
  · dsimp only
    split
    · exact Nat.le_refl _
    · show it.bucket_idx ≤ skipEmpty m (it.bucket_idx + 1)
      have h := le_skipEmpty m (it.bucket_idx + 1)
      omega

theorem iterN_within (m : HashMap K V) {n : Nat} (hn : n < m.bucket_count) :
    ∀ k, k < (m.buckets.getD n []).length →
      (iterSucc m)^[k] ⟨n, 0⟩ = ⟨n, k⟩
  | 0, _ => rfl
  | k + 1, hk => by
    rw [Function.iterate_succ_apply', iterN_within m hn k (by omega)]
    exact iterSucc_within m hn hk

theorem iterN_bucket_le (m : HashMap K V) (it : Iterator) :
    ∀ k, it.bucket_idx ≤ ((iterSucc m)^[k] it).bucket_idx
  | 0 => Nat.le_refl _
  | k + 1 => by
    rw [Function.iterate_succ_apply']
    exact Nat.le_trans (iterN_bucket_le m it k) (iterSucc_bucket_le m _)

theorem load_le_of_ge_ceil {ec nb : Nat} {mlf : ℚ} (hmlf : 0 < mlf) (hnb : 0 < nb)
    (h : Nat.ceil ((ec : ℚ) / mlf) ≤ nb) : (ec : ℚ) / nb ≤ mlf := by
  have h1 : (ec : ℚ) / mlf ≤ nb := le_trans (Nat.le_ceil _) (by exact_mod_cast h)
  have hnbq : (0 : ℚ) < nb := by exact_mod_cast hnb
  rw [div_le_iff₀ hnbq]
  rw [div_le_iff₀ hmlf] at h1
  rw [mul_comm]
  exact h1

theorem insert_load_inv {hash : K → Nat} {m : HashMap K V} (h1 : 0 < m.bucket_count)
    (h2 : 0 < m.max_load_factor)
    (h3 : (m.entry_count : ℚ) / m.bucket_count ≤ m.max_load_factor) (k : K) (v : V) :
    ∃ m', insert hash m k v = .ok m' ∧ 0 < m'.bucket_count ∧
      m'.max_load_factor = m.max_load_factor ∧
      (m'.entry_count : ℚ) / m'.bucket_count ≤ m'.max_load_factor := by
  rcases insert_cases hash m k v h1 with ⟨_, heq⟩ | ⟨_, m₁, hm₁, hrest⟩
  · exact ⟨_, heq, h1, rfl, h3⟩
  · rcases hrest with ⟨hl, heq⟩ | ⟨hl, heq⟩
    · have hposc : 0 < m.bucket_count * 2 := by omega
      refine ⟨_, heq, rehash_bc_pos hash _ hposc, ?_, ?_⟩
      · rw [rehash_max_load_factor, hm₁]
      · rw [rehash_entry_count, rehash_max_load_factor, rehash_bucket_count, hm₁]
        show ((m.entry_count + 1 : Nat) : ℚ) /
          ((if m.bucket_count * 2 <
              Nat.ceil (((m.entry_count + 1 : Nat) : ℚ) / m.max_load_factor)
            then Nat.ceil (((m.entry_count + 1 : Nat) : ℚ) / m.max_load_factor)
            else m.bucket_count * 2) : Nat) ≤ m.max_load_factor
        split
        · refine load_le_of_ge_ceil h2 (by omega) (Nat.le_refl _)
        · refine load_le_of_ge_ceil h2 hposc (by omega)
    · refine ⟨_, heq, ?_, ?_, ?_⟩
      · rw [hm₁]
        exact h1
      · rw [hm₁]
      · have hle := not_lt.mp hl
        rw [hm₁]
        show ((m.entry_count + 1 : Nat) : ℚ) / (m.bucket_count : ℚ) ≤ m.max_load_factor
        rw [hm₁] at hle
        exact hle

theorem setMlf_load_inv (hash : K → Nat) {m : HashMap K V} (h1 : 0 < m.bucket_count)
    {ml : ℚ} (hml : 0 < ml) :
    0 < (set_max_load_factor hash m ml).bucket_count ∧
    (set_max_load_factor hash m ml).max_load_factor = ml ∧
    ((set_max_load_factor hash m ml).entry_count : ℚ) /
      ((set_max_load_factor hash m ml).bucket_count : ℚ) ≤
      (set_max_load_factor hash m ml).max_load_factor := by
  rw [set_max_load_factor]
  dsimp only
  by_cases hl : load_factor { m with max_load_factor := ml } >
      ({ m with max_load_factor := ml } : HashMap K V).max_load_factor
  · rw [if_pos hl]
    have hposc : 0 < m.bucket_count * 2 := by omega
    refine ⟨rehash_bc_pos hash _ hposc, by rw [rehash_max_load_factor], ?_⟩
    rw [rehash_entry_count, rehash_max_load_factor, rehash_bucket_count]
    show ((m.entry_count : Nat) : ℚ) /
      ((if m.bucket_count * 2 < Nat.ceil ((m.entry_count : ℚ) / ml)
        then Nat.ceil ((m.entry_count : ℚ) / ml)
        else m.bucket_count * 2) : Nat) ≤ ml
    split
    · exact load_le_of_ge_ceil hml (by omega) (Nat.le_refl _)
    · exact load_le_of_ge_ceil hml hposc (by omega)
  · rw [if_neg hl]
    refine ⟨h1, rfl, ?_⟩
    exact not_lt.mp hl

theorem runOps_inv (hash : K → Nat) :
    ∀ (ops : List (Op K V)) (m : HashMap K V), 0 < m.bucket_count →
      0 < m.max_load_factor →
      (m.entry_count : ℚ) / m.bucket_count ≤ m.max_load_factor →
      (∀ op ∈ ops, opPositive op = true) →
      ∃ m', runOps hash m ops = .ok m' ∧ 0 < m'.bucket_count ∧
        0 < m'.max_load_factor ∧
        (m'.entry_count : ℚ) / m'.bucket_count ≤ m'.max_load_factor
  | [], m, h1, h2, h3, _ => ⟨m, rfl, h1, h2, h3⟩
  | op :: ops, m, h1, h2, h3, hpos => by
    have hpos' : ∀ op ∈ ops, opPositive op = true :=
      fun o ho => hpos o (List.mem_cons_of_mem _ ho)
    cases op with
    | ins k v =>
      obtain ⟨m₂, heq, hb, hml, hld⟩ := insert_load_inv h1 h2 h3 k v
      have hstep : runOps hash m (Op.ins k v :: ops) = runOps hash m₂ ops := by
        rw [runOps, applyOp, heq]
      rw [hstep]
      exact runOps_inv hash ops m₂ hb (by rw [hml]; exact h2) hld hpos'
    | setMlf q =>
      have hq : 0 < q := by
        have h := hpos _ (List.mem_cons_self _ _)
        simpa [opPositive] using h
      obtain ⟨hb, hml, hld⟩ := setMlf_load_inv hash h1 (m := m) hq
      have hstep : runOps hash m (Op.setMlf q :: ops) =
          runOps hash (set_max_load_factor hash m q) ops := by
        rw [runOps, applyOp]
      rw [hstep]
      exact runOps_inv hash ops _ hb (by rw [hml]; exact hq) hld hpos'

end HashMap

namespace HashMap

variable {K V : Type} [DecidableEq K]

theorem findIdx?_get {α : Type} (p : α → Bool) :
    ∀ (l : List α) (i : Nat), l.findIdx? p = some i →
      ∀ h : i < l.length, p (l.get ⟨i, h⟩) = true
  | [], i, hF => by simp at hF
  | x :: xs, i, hF => by
    rw [List.findIdx?_cons] at hF
    by_cases hp : p x
    · rw [if_pos hp] at hF
      cases hF
      intro _
      exact hp
    · rw [if_neg hp] at hF
      rw [List.findIdx?_succ] at hF
      obtain ⟨j, hj, hji⟩ := Option.map_eq_some'.mp hF
      subst hji
      intro h
      exact findIdx?_get p xs j hj (by simpa using h)

theorem entry_eta {K V : Type} {k : K} (x : Entry K V) (hx : x.key = k) :
    Entry.mk k x.value = x := by
  cases x
  cases hx
  rfl

/-- C1: for every table constructed with a strictly positive max_load_factor
and every sequence of insert and set_max_load_factor(v) operations with v
strictly positive, the invariant entry_count / bucket_count ≤
max_load_factor holds after every operation (hence after every prefix of
the sequence), re-established by rehashing, never by rejecting a mutation
(every run returns ok). -/
theorem claim_C1 (hash : K → Nat) (cap : Nat) (mlf : ℚ) (hcap : 0 < cap)
    (hmlf : 0 < mlf) (ops : List (Op K V))
    (hops : ∀ op ∈ ops, opPositive op = true) :
    ∃ m₀ m, (hashMapNew cap mlf : Except HMErr (HashMap K V)) = .ok m₀ ∧
      runOps hash m₀ ops = .ok m ∧
      (m.entry_count : ℚ) / m.bucket_count ≤ m.max_load_factor := by
  have h₀ : (hashMapNew cap mlf : Except HMErr (HashMap K V)) =
      .ok ⟨List.replicate cap [], cap, 0, mlf⟩ := by
    rw [hashMapNew, if_neg (by omega), if_neg (not_le.mpr hmlf)]
  have hld : (((⟨List.replicate cap [], cap, 0, mlf⟩ : HashMap K V).entry_count : ℚ)) /
      ((⟨List.replicate cap [], cap, 0, mlf⟩ : HashMap K V).bucket_count : ℚ) ≤ mlf := by
    show ((0 : Nat) : ℚ) / (cap : ℚ) ≤ mlf
    rw [Nat.cast_zero, zero_div]
    exact le_of_lt hmlf
  obtain ⟨m, hrun, _, _, hinv⟩ :=
    runOps_inv hash ops ⟨List.replicate cap [], cap, 0, mlf⟩ hcap hmlf hld hops
  exact ⟨_, m, h₀, hrun, hinv⟩

/-- Witness for C1 at a concrete instance. -/
theorem claim_C1_witness :
    ∃ m₀ m, (hashMapNew 1 1 : Except HMErr (HashMap Nat Nat)) = .ok m₀ ∧
      runOps id m₀ [Op.ins 0 5, Op.setMlf 2] = .ok m ∧
      (m.entry_count : ℚ) / m.bucket_count ≤ m.max_load_factor :=
  claim_C1 id 1 1 (by norm_num) (by norm_num) [Op.ins 0 5, Op.setMlf 2]
    (by
      intro op hop
      rcases List.mem_cons.mp hop with rfl | hop
      · rfl
      · rcases List.mem_cons.mp hop with rfl | hop
        · show decide ((0 : ℚ) < 2) = true
          norm_num
        · exact absurd hop (List.not_mem_nil _))

/-- C2: after insert(k, v), at(k) returns v; if k was present the insert
overwrites in place without changing entry_count (a second insert(k, v2)
makes at(k) return v2 and leaves entry_count unchanged), while inserting an
absent key increments entry_count by one. -/
theorem claim_C2 (hash : K → Nat) (m : HashMap K V) (hwf : WF hash m)
    (hbc : 0 < m.bucket_count) (k : K) (v v2 : V) :
    ∃ m1 m2, insert hash m k v = .ok m1 ∧ atKey hash m1 k = .ok v ∧
      (contains hash m k = .ok true → m1.entry_count = m.entry_count) ∧
      (contains hash m k = .ok false → m1.entry_count = m.entry_count + 1) ∧
      insert hash m1 k v2 = .ok m2 ∧ atKey hash m2 k = .ok v2 ∧
      m2.entry_count = m1.entry_count := by
  obtain ⟨m1, heq1, hwf1, hbc1, _, hmem1, _, hit1, miss1⟩ := insert_spec hwf hbc k v
  obtain ⟨m2, heq2, hwf2, hbc2, _, hmem2, _, hit2, _⟩ := insert_spec hwf1 hbc1 k v2
  refine ⟨m1, m2, heq1, (atKey_ok_iff hwf1 hbc1).mpr hmem1, ?_, ?_, heq2,
    (atKey_ok_iff hwf2 hbc2).mpr hmem2, ?_⟩
  · intro hc
    exact hit1 ((contains_true_iff hwf hbc).mp hc)
  · intro hc
    exact (miss1 ((contains_false_iff hwf hbc).mp hc)).1
  · exact hit2 ⟨Entry.mk k v, hmem1, rfl⟩

/-- Witness for C2 at a concrete instance. -/
theorem claim_C2_witness :
    ∃ m1 m2, insert id (⟨[[], [], [], []], 4, 0, 3/4⟩ : HashMap Nat Nat) 1 11 = .ok m1 ∧
      atKey id m1 1 = .ok 11 ∧
      (contains id (⟨[[], [], [], []], 4, 0, 3/4⟩ : HashMap Nat Nat) 1 = .ok true →
        m1.entry_count = (⟨[[], [], [], []], 4, 0, 3/4⟩ : HashMap Nat Nat).entry_count) ∧
      (contains id (⟨[[], [], [], []], 4, 0, 3/4⟩ : HashMap Nat Nat) 1 = .ok false →
        m1.entry_count = (⟨[[], [], [], []], 4, 0, 3/4⟩ : HashMap Nat Nat).entry_count + 1) ∧
      insert id m1 1 22 = .ok m2 ∧ atKey id m2 1 = .ok 22 ∧
      m2.entry_count = m1.entry_count :=
  claim_C2 id ⟨[[], [], [], []], 4, 0, 3/4⟩ (by decide) (by decide) 1 11 22

/-- C3: erase(k) returns 0 and leaves the table entirely unchanged when k
is absent; when k is present it returns 1, removes exactly that entry
(entry_count decreases by one), and contains(k) is false afterward. -/
theorem claim_C3 (hash : K → Nat) (m : HashMap K V) (hwf : WF hash m)
    (hbc : 0 < m.bucket_count) (k : K) :
    (contains hash m k = .ok false → erase_key hash m k = .ok (0, m)) ∧
    (contains hash m k = .ok true →
      ∃ m' v, erase_key hash m k = .ok (1, m') ∧
        m'.entry_count + 1 = m.entry_count ∧
        Entry.mk k v ∈ entriesOf m ∧
        List.Perm (entriesOf m' ++ [Entry.mk k v]) (entriesOf m) ∧
        contains hash m' k = .ok false) := by
  constructor
  · intro hc
    have habs := (contains_false_iff hwf hbc).mp hc
    have hFnone : (m.buckets.getD (hash k % m.bucket_count) []).findIdx?
        (fun e => decide (e.key = k)) = none := by
      rw [List.findIdx?_eq_none_iff]
      intro x hx
      have hxm : x ∈ entriesOf m :=
        mem_flatten_of_mem_getD (target_bucket_lt hwf hbc k) hx
      simpa using habs x hxm
    rcases erase_key_cases hash m k hbc with ⟨_, heq⟩ | ⟨i, hF, _⟩
    · exact heq
    · rw [hFnone] at hF
      exact absurd hF (by simp)
  · intro hc
    obtain ⟨e₀, he₀, hk₀⟩ := (contains_true_iff hwf hbc).mp hc
    have hbmem := mem_target_bucket hwf hbc he₀ hk₀
    have hex : ∃ x, x ∈ m.buckets.getD (hash k % m.bucket_count) [] ∧
        (fun e => decide (e.key = k)) x = true := ⟨e₀, hbmem, by simp [hk₀]⟩
    rcases erase_key_cases hash m k hbc with ⟨hF, _⟩ | ⟨i, hF, heq⟩
    · rw [List.findIdx?_eq_some_of_exists hex] at hF
      exact absurd hF (by simp)
    · have hilt : i < (m.buckets.getD (hash k % m.bucket_count) []).length :=
        (List.findIdx?_eq_some_iff_findIdx_eq.mp hF).1
      have hkey : ((m.buckets.getD (hash k % m.bucket_count) []).get ⟨i, hilt⟩).key
          = k := by
        have hp := findIdx?_get _ _ i hF hilt
        simpa using hp
      have hE := entry_eta _ hkey
      obtain ⟨hwf', hec, hperm, hcon⟩ := erase_at_spec hwf _ i
        (Nat.mod_lt _ hbc) hilt _ rfl _ rfl
      refine ⟨_, ((m.buckets.getD (hash k % m.bucket_count) []).get ⟨i, hilt⟩).value,
        heq, hec, ?_, ?_, ?_⟩
      · rw [hE]
        exact mem_flatten_of_mem_getD (target_bucket_lt hwf hbc k)
          (List.get_mem _ _ hilt)
      · rw [hE]
        exact hperm
      · rw [hkey] at hcon
        exact hcon

/-- Witness for C3 at a concrete instance. -/
theorem claim_C3_witness :
    (contains id (⟨[[⟨0, 7⟩], [⟨1, 8⟩]], 2, 2, 3/4⟩ : HashMap Nat Nat) 1 = .ok false →
      erase_key id (⟨[[⟨0, 7⟩], [⟨1, 8⟩]], 2, 2, 3/4⟩ : HashMap Nat Nat) 1 =
        .ok (0, ⟨[[⟨0, 7⟩], [⟨1, 8⟩]], 2, 2, 3/4⟩)) ∧
    (contains id (⟨[[⟨0, 7⟩], [⟨1, 8⟩]], 2, 2, 3/4⟩ : HashMap Nat Nat) 1 = .ok true →
      ∃ m' v, erase_key id (⟨[[⟨0, 7⟩], [⟨1, 8⟩]], 2, 2, 3/4⟩ : HashMap Nat Nat) 1 =
          .ok (1, m') ∧
        m'.entry_count + 1 =
          (⟨[[⟨0, 7⟩], [⟨1, 8⟩]], 2, 2, 3/4⟩ : HashMap Nat Nat).entry_count ∧
        Entry.mk 1 v ∈ entriesOf (⟨[[⟨0, 7⟩], [⟨1, 8⟩]], 2, 2, 3/4⟩ : HashMap Nat Nat) ∧
        List.Perm (entriesOf m' ++ [Entry.mk 1 v])
          (entriesOf (⟨[[⟨0, 7⟩], [⟨1, 8⟩]], 2, 2, 3/4⟩ : HashMap Nat Nat)) ∧
        contains id m' 1 = .ok false) :=
  claim_C3 id ⟨[[⟨0, 7⟩], [⟨1, 8⟩]], 2, 2, 3/4⟩ (by decide) (by decide) 1

/-- C4: the multiset of (key, value) pairs is preserved by any explicit
rehash(count) call, and an insert of an absent key (growth triggered or
not) extends it by exactly the new pair. -/
theorem claim_C4 (hash : K → Nat) (m : HashMap K V) (hwf : WF hash m)
    (hmlf : 0 < m.max_load_factor) :
    (∀ c, List.Perm (entriesOf (rehash hash m c)) (entriesOf m)) ∧
    (∀ k v, 0 < m.bucket_count → contains hash m k = .ok false →
      ∃ m', insert hash m k v = .ok m' ∧
        List.Perm (entriesOf m') (entriesOf m ++ [Entry.mk k v])) := by
  constructor
  · intro c
    exact rehash_perm hash c hwf.2.1 (Or.inr hmlf)
  · intro k v hbc hc
    obtain ⟨m', heq, _, _, _, _, _, _, miss⟩ := insert_spec hwf hbc k v
    exact ⟨m', heq, (miss ((contains_false_iff hwf hbc).mp hc)).2⟩

/-- Witness for C4 at a concrete instance. -/
theorem claim_C4_witness :
    (∀ c, List.Perm
      (entriesOf (rehash id (⟨[[⟨0, 7⟩], [⟨1, 8⟩]], 2, 2, 3/4⟩ : HashMap Nat Nat) c))
      (entriesOf (⟨[[⟨0, 7⟩], [⟨1, 8⟩]], 2, 2, 3/4⟩ : HashMap Nat Nat))) ∧
    (∀ k v, 0 < (⟨[[⟨0, 7⟩], [⟨1, 8⟩]], 2, 2, 3/4⟩ : HashMap Nat Nat).bucket_count →
      contains id (⟨[[⟨0, 7⟩], [⟨1, 8⟩]], 2, 2, 3/4⟩ : HashMap Nat Nat) k = .ok false →
      ∃ m', insert id (⟨[[⟨0, 7⟩], [⟨1, 8⟩]], 2, 2, 3/4⟩ : HashMap Nat Nat) k v = .ok m' ∧
        List.Perm (entriesOf m')
          (entriesOf (⟨[[⟨0, 7⟩], [⟨1, 8⟩]], 2, 2, 3/4⟩ : HashMap Nat Nat) ++
            [Entry.mk k v])) :=
  claim_C4 id ⟨[[⟨0, 7⟩], [⟨1, 8⟩]], 2, 2, 3/4⟩ (by decide) (by norm_num)

end HashMap

namespace HashMap

variable {K V : Type} [DecidableEq K]

/-- C5: rehash(count) sets the bucket count to the larger of count and
ceil(entry_count / max_load_factor); if that equals the current
bucket_count the call is a no-op, otherwise every entry is re-filed into
bucket hash(key) mod the new bucket_count (and the entries are preserved).
Concretely: capacity 4, load factor 0.75, inserting keys 1..4 triggers an
automatic rehash to ≥ 8 buckets on the 4th insert, with all four keys
still retrievable via at. -/
theorem claim_C5 (hash : K → Nat) (m : HashMap K V) (hwf : WF hash m)
    (hmlf : 0 < m.max_load_factor) (c : Nat) :
    (∀ nb, nb = (if c < Nat.ceil ((m.entry_count : ℚ) / m.max_load_factor)
        then Nat.ceil ((m.entry_count : ℚ) / m.max_load_factor) else c) →
      (rehash hash m c).bucket_count = nb ∧
      (nb = m.bucket_count → rehash hash m c = m) ∧
      (nb ≠ m.bucket_count →
        (∀ i, i < nb → ∀ e ∈ (rehash hash m c).buckets.getD i [],
          hash e.key % nb = i) ∧
        List.Perm (entriesOf (rehash hash m c)) (entriesOf m))) ∧
    (∃ m0 m1 m2 m3 m4 : HashMap Nat Nat,
      hashMapNew 4 (3/4) = .ok m0 ∧
      insert id m0 1 11 = .ok m1 ∧ insert id m1 2 12 = .ok m2 ∧
      insert id m2 3 13 = .ok m3 ∧ insert id m3 4 14 = .ok m4 ∧
      8 ≤ m4.bucket_count ∧
      atKey id m4 1 = .ok 11 ∧ atKey id m4 2 = .ok 12 ∧
      atKey id m4 3 = .ok 13 ∧ atKey id m4 4 = .ok 14) := by
  constructor
  · intro nb hnb
    have hbcnt : (rehash hash m c).bucket_count = nb := by
      rw [rehash_bucket_count, ← hnb]
    refine ⟨hbcnt, ?_, ?_⟩
    · intro h
      rcases rehash_cases hash m c with ⟨_, heq⟩ | ⟨nb', hnb', hne, _⟩
      · exact heq
      · exact absurd (by rw [hnb', ← hnb, h]) hne
    · intro hne
      constructor
      · have hp := rehash_placement hash (m := m) (c := c) (hnb ▸ hne)
        intro i hi e he
        have h := hp i (by rw [hbcnt]; exact hi) e he
        rwa [hbcnt] at h
      · exact rehash_perm hash c hwf.2.1 (Or.inr hmlf)
  · have hceil : (⌈(16 : ℚ) / 3⌉₊ : Nat) = 6 := by
      rw [Nat.ceil_eq_iff (by norm_num)]
      norm_num
    refine ⟨⟨List.replicate 4 [], 4, 0, 3/4⟩, ⟨[[], [⟨1, 11⟩], [], []], 4, 1, 3/4⟩,
      ⟨[[], [⟨1, 11⟩], [⟨2, 12⟩], []], 4, 2, 3/4⟩,
      ⟨[[], [⟨1, 11⟩], [⟨2, 12⟩], [⟨3, 13⟩]], 4, 3, 3/4⟩,
      ⟨[[], [⟨1, 11⟩], [⟨2, 12⟩], [⟨3, 13⟩], [⟨4, 14⟩], [], [], []], 8, 4, 3/4⟩,
      ?_, ?_, ?_, ?_, ?_, by norm_num, ?_, ?_, ?_, ?_⟩
    · rw [hashMapNew]
      norm_num
    · norm_num [insert, hash_func, load_factor, List.replicate]
    · norm_num [insert, hash_func, load_factor]
    · norm_num [insert, hash_func, load_factor]
    · norm_num [insert, hash_func, load_factor, rehash, bucketsPush, hceil,
        List.replicate]
    · norm_num [atKey, find_entry, hash_func]
    · norm_num [atKey, find_entry, hash_func]
    · norm_num [atKey, find_entry, hash_func]
    · norm_num [atKey, find_entry, hash_func]

/-- Witness for C5 at a concrete instance. -/
theorem claim_C5_witness :
    (∀ nb, nb = (if 16 < Nat.ceil
          (((⟨[[⟨0, 7⟩], [⟨1, 8⟩]], 2, 2, 3/4⟩ : HashMap Nat Nat).entry_count : ℚ) /
            (⟨[[⟨0, 7⟩], [⟨1, 8⟩]], 2, 2, 3/4⟩ : HashMap Nat Nat).max_load_factor)
        then Nat.ceil
          (((⟨[[⟨0, 7⟩], [⟨1, 8⟩]], 2, 2, 3/4⟩ : HashMap Nat Nat).entry_count : ℚ) /
            (⟨[[⟨0, 7⟩], [⟨1, 8⟩]], 2, 2, 3/4⟩ : HashMap Nat Nat).max_load_factor)
        else 16) →
      (rehash id (⟨[[⟨0, 7⟩], [⟨1, 8⟩]], 2, 2, 3/4⟩ : HashMap Nat Nat) 16).bucket_count
        = nb ∧
      (nb = (⟨[[⟨0, 7⟩], [⟨1, 8⟩]], 2, 2, 3/4⟩ : HashMap Nat Nat).bucket_count →
        rehash id (⟨[[⟨0, 7⟩], [⟨1, 8⟩]], 2, 2, 3/4⟩ : HashMap Nat Nat) 16 =
          ⟨[[⟨0, 7⟩], [⟨1, 8⟩]], 2, 2, 3/4⟩) ∧
      (nb ≠ (⟨[[⟨0, 7⟩], [⟨1, 8⟩]], 2, 2, 3/4⟩ : HashMap Nat Nat).bucket_count →
        (∀ i, i < nb → ∀ e ∈ (rehash id
            (⟨[[⟨0, 7⟩], [⟨1, 8⟩]], 2, 2, 3/4⟩ : HashMap Nat Nat) 16).buckets.getD i [],
          id e.key % nb = i) ∧
        List.Perm
          (entriesOf (rehash id (⟨[[⟨0, 7⟩], [⟨1, 8⟩]], 2, 2, 3/4⟩ : HashMap Nat Nat) 16))
          (entriesOf (⟨[[⟨0, 7⟩], [⟨1, 8⟩]], 2, 2, 3/4⟩ : HashMap Nat Nat)))) ∧
    (∃ m0 m1 m2 m3 m4 : HashMap Nat Nat,
      hashMapNew 4 (3/4) = .ok m0 ∧
      insert id m0 1 11 = .ok m1 ∧ insert id m1 2 12 = .ok m2 ∧
      insert id m2 3 13 = .ok m3 ∧ insert id m3 4 14 = .ok m4 ∧
      8 ≤ m4.bucket_count ∧
      atKey id m4 1 = .ok 11 ∧ atKey id m4 2 = .ok 12 ∧
      atKey id m4 3 = .ok 13 ∧ atKey id m4 4 = .ok 14) :=
  claim_C5 id ⟨[[⟨0, 7⟩], [⟨1, 8⟩]], 2, 2, 3/4⟩ (by decide) (by norm_num) 16

end HashMap

namespace HashMap

/-- C6 counterexample: the claim that begin(n) equals end(n) exactly when
bucket n is empty, and that iterating from begin(n) reaches end(n), is
false on the code.  With bucket_count 1 and bucket 0 empty, begin(0) is
the global end cursor (1, 0) while end(0) is (0, 0) — unequal even though
the bucket is empty.  With one entry in bucket 0, the iterator steps from
(0, 0) straight to the global end (1, 0) and stays there, so no number of
increments ever yields end(0) = (0, 1). -/
theorem claim_C6_counterexample :
    ((⟨[[]], 1, 0, 3/4⟩ : HashMap Nat Nat).buckets.getD 0 []).isEmpty = true ∧
    begin_at (⟨[[]], 1, 0, 3/4⟩ : HashMap Nat Nat) 0 = .ok ⟨1, 0⟩ ∧
    end_at (⟨[[]], 1, 0, 3/4⟩ : HashMap Nat Nat) 0 = .ok ⟨0, 0⟩ ∧
    (⟨1, 0⟩ : Iterator) ≠ ⟨0, 0⟩ ∧
    begin_at (⟨[[⟨0, 5⟩]], 1, 1, 3/4⟩ : HashMap Nat Nat) 0 = .ok ⟨0, 0⟩ ∧
    end_at (⟨[[⟨0, 5⟩]], 1, 1, 3/4⟩ : HashMap Nat Nat) 0 = .ok ⟨0, 1⟩ ∧
    (∀ j, (iterSucc (⟨[[⟨0, 5⟩]], 1, 1, 3/4⟩ : HashMap Nat Nat))^[j] ⟨0, 0⟩ ≠
      ⟨0, 1⟩) := by
  refine ⟨rfl, rfl, rfl, by decide, rfl, rfl, ?_⟩
  have h1 : iterSucc (⟨[[⟨0, 5⟩]], 1, 1, 3/4⟩ : HashMap Nat Nat) ⟨0, 0⟩ = ⟨1, 0⟩ := by
    rw [iterSucc_exit _ (by decide) (by decide)]
    have hs : skipEmpty (⟨[[⟨0, 5⟩]], 1, 1, 3/4⟩ : HashMap Nat Nat) (0 + 1) = 0 + 1 := by
      rw [skipEmpty, dif_neg (by decide)]
    rw [hs]
  have hstay : ∀ j, (iterSucc (⟨[[⟨0, 5⟩]], 1, 1, 3/4⟩ : HashMap Nat Nat))^[j] ⟨1, 0⟩ =
      ⟨1, 0⟩ := by
    intro j
    induction j with
    | zero => rfl
    | succ j ih =>
      rw [Function.iterate_succ_apply', ih]
      exact iterSucc_stay _ (by decide)
  intro j
  cases j with
  | zero => decide
  | succ j =>
    rw [Function.iterate_succ_apply, h1, hstay j]
    decide

/-- C6 amended: for every table and bucket index n < bucket_count, end(n)
is the cursor (n, bucket size).  If bucket n is empty, begin(n) returns the
global end cursor, which differs from end(n).  If bucket n is non-empty,
begin(n) = (n, 0); advancing it k < size times yields the cursor (n, k)
designating the k-th entry of bucket n (so the bucket is visited in its
current order), but the size-th increment leaves bucket n for the first
non-empty later bucket (or the global end), and repeated increment never
yields the per-bucket end cursor end(n) = (n, size). -/
theorem claim_C6_amended {K V : Type} [DecidableEq K] (m : HashMap K V) (n : Nat)
    (hn : n < m.bucket_count) :
    (end_at m n = .ok ⟨n, (m.buckets.getD n []).length⟩) ∧
    ((m.buckets.getD n []).isEmpty = true →
      begin_at m n = .ok (endIter m) ∧ endIter m ≠ (⟨n, 0⟩ : Iterator)) ∧
    ((m.buckets.getD n []).isEmpty = false →
      begin_at m n = .ok ⟨n, 0⟩ ∧
      (∀ k, ∀ hk : k < (m.buckets.getD n []).length,
        (iterSucc m)^[k] ⟨n, 0⟩ = ⟨n, k⟩ ∧
        deref m ⟨n, k⟩ = .ok ((m.buckets.getD n []).get ⟨k, hk⟩)) ∧
      (iterSucc m)^[(m.buckets.getD n []).length] ⟨n, 0⟩ =
        ⟨skipEmpty m (n + 1), 0⟩ ∧
      (∀ k, (iterSucc m)^[k] ⟨n, 0⟩ ≠ ⟨n, (m.buckets.getD n []).length⟩)) := by
  refine ⟨?_, ?_, ?_⟩
  · rw [end_at, if_neg (Nat.not_le.mpr hn)]
  · intro hemp
    refine ⟨?_, ?_⟩
    · rw [begin_at, if_neg (Nat.not_le.mpr hn), if_pos hemp]
    · intro hcon
      have h := congrArg Iterator.bucket_idx hcon
      simp only [endIter] at h
      omega
  · intro hne
    have hlp : 0 < (m.buckets.getD n []).length := by
      cases hl : m.buckets.getD n [] with
      | nil => rw [hl] at hne; simp at hne
      | cons a as => simp
    have hexit : (iterSucc m)^[(m.buckets.getD n []).length] ⟨n, 0⟩ =
        ⟨skipEmpty m (n + 1), 0⟩ := by
      have hlen1 : (m.buckets.getD n []).length =
          ((m.buckets.getD n []).length - 1) + 1 := by omega
      rw [hlen1, Function.iterate_succ_apply',
        iterN_within m hn ((m.buckets.getD n []).length - 1) (by omega)]
      exact iterSucc_exit m hn (by omega)
    refine ⟨?_, ?_, hexit, ?_⟩
    · rw [begin_at, if_neg (Nat.not_le.mpr hn),
        if_neg (by rw [hne]; exact Bool.false_ne_true)]
    · intro k hk
      refine ⟨iterN_within m hn k hk, ?_⟩
      rw [deref, if_neg (Nat.not_le.mpr hn), List.get?_eq_get hk]
    · intro k
      by_cases hk : k < (m.buckets.getD n []).length
      · rw [iterN_within m hn k hk]
        intro hcon
        have h := congrArg Iterator.entry_idx hcon
        simp only at h
        omega
      · have hk2 : k = (k - (m.buckets.getD n []).length) +
            (m.buckets.getD n []).length := by omega
        have hiter : (iterSucc m)^[k] ⟨n, 0⟩ =
            (iterSucc m)^[k - (m.buckets.getD n []).length]
              ⟨skipEmpty m (n + 1), 0⟩ := by
          conv_lhs => rw [hk2]
          rw [Function.iterate_add_apply, hexit]
        have h1 : skipEmpty m (n + 1) ≤
            ((iterSucc m)^[k - (m.buckets.getD n []).length]
              ⟨skipEmpty m (n + 1), 0⟩).bucket_idx :=
          iterN_bucket_le m ⟨skipEmpty m (n + 1), 0⟩
            (k - (m.buckets.getD n []).length)
        have h2 := le_skipEmpty m (n + 1)
        intro hcon
        rw [hiter] at hcon
        have h3 := congrArg Iterator.bucket_idx hcon
        simp only at h3
        omega

/-- Witness for the amended C6 at a concrete instance. -/
theorem claim_C6_amended_witness :
    (end_at (⟨[[⟨0, 5⟩], [⟨1, 6⟩]], 2, 2, 3/4⟩ : HashMap Nat Nat) 0 =
      .ok ⟨0, ((⟨[[⟨0, 5⟩], [⟨1, 6⟩]], 2, 2, 3/4⟩ : HashMap Nat Nat).buckets.getD 0
        []).length⟩) ∧
    (((⟨[[⟨0, 5⟩], [⟨1, 6⟩]], 2, 2, 3/4⟩ : HashMap Nat Nat).buckets.getD 0
        []).isEmpty = true →
      begin_at (⟨[[⟨0, 5⟩], [⟨1, 6⟩]], 2, 2, 3/4⟩ : HashMap Nat Nat) 0 =
        .ok (endIter (⟨[[⟨0, 5⟩], [⟨1, 6⟩]], 2, 2, 3/4⟩ : HashMap Nat Nat)) ∧
      endIter (⟨[[⟨0, 5⟩], [⟨1, 6⟩]], 2, 2, 3/4⟩ : HashMap Nat Nat) ≠
        (⟨0, 0⟩ : Iterator)) ∧
    (((⟨[[⟨0, 5⟩], [⟨1, 6⟩]], 2, 2, 3/4⟩ : HashMap Nat Nat).buckets.getD 0
        []).isEmpty = false →
      begin_at (⟨[[⟨0, 5⟩], [⟨1, 6⟩]], 2, 2, 3/4⟩ : HashMap Nat Nat) 0 = .ok ⟨0, 0⟩ ∧
      (∀ k, ∀ hk : k < ((⟨[[⟨0, 5⟩], [⟨1, 6⟩]], 2, 2, 3/4⟩ :
          HashMap Nat Nat).buckets.getD 0 []).length,
        (iterSucc (⟨[[⟨0, 5⟩], [⟨1, 6⟩]], 2, 2, 3/4⟩ : HashMap Nat Nat))^[k] ⟨0, 0⟩ =
          ⟨0, k⟩ ∧
        deref (⟨[[⟨0, 5⟩], [⟨1, 6⟩]], 2, 2, 3/4⟩ : HashMap Nat Nat) ⟨0, k⟩ =
          .ok (((⟨[[⟨0, 5⟩], [⟨1, 6⟩]], 2, 2, 3/4⟩ :
            HashMap Nat Nat).buckets.getD 0 []).get ⟨k, hk⟩)) ∧
      (iterSucc (⟨[[⟨0, 5⟩], [⟨1, 6⟩]], 2, 2, 3/4⟩ : HashMap Nat Nat))^[((⟨[[⟨0, 5⟩],
          [⟨1, 6⟩]], 2, 2, 3/4⟩ : HashMap Nat Nat).buckets.getD 0 []).length] ⟨0, 0⟩ =
        ⟨skipEmpty (⟨[[⟨0, 5⟩], [⟨1, 6⟩]], 2, 2, 3/4⟩ : HashMap Nat Nat) (0 + 1), 0⟩ ∧
      (∀ k, (iterSucc (⟨[[⟨0, 5⟩], [⟨1, 6⟩]], 2, 2, 3/4⟩ :
          HashMap Nat Nat))^[k] ⟨0, 0⟩ ≠
        ⟨0, ((⟨[[⟨0, 5⟩], [⟨1, 6⟩]], 2, 2, 3/4⟩ : HashMap Nat Nat).buckets.getD 0
          []).length⟩)) :=
  claim_C6_amended ⟨[[⟨0, 5⟩], [⟨1, 6⟩]], 2, 2, 3/4⟩ 0 (by decide)

end HashMap

namespace HashMap

variable {K V : Type} [DecidableEq K]

/-- C7: erase(cursor) on a valid cursor removes exactly the designated
entry (entry_count decreases by one, its key is no longer contained, the
remaining pairs are preserved) and returns the cursor to the next logical
entry in bucket-major order of the resulting table (`specNextCursor`), or
the end-cursor.  Concretely, on the table holding exactly "a"->1 and
"b"->2, erasing the cursor to "a" yields a cursor designating "b" (or the
end-cursor), after which contains("a") is false and contains("b") is
true. -/
theorem claim_C7 (hash : K → Nat) (m : HashMap K V) (hwf : WF hash m)
    (b i : Nat) (hb : b < m.bucket_count)
    (hi : i < (m.buckets.getD b []).length) :
    (∃ m' it', erase_iter m ⟨b, i⟩ = (m', it') ∧
      m'.entry_count + 1 = m.entry_count ∧
      contains hash m' ((m.buckets.getD b []).get ⟨i, hi⟩).key = .ok false ∧
      List.Perm (entriesOf m' ++ [(m.buckets.getD b []).get ⟨i, hi⟩])
        (entriesOf m) ∧
      it' = specNextCursor m' b i) ∧
    (∃ mr itr,
      find (fun _ => 0) (⟨[[⟨"a", 1⟩, ⟨"b", 2⟩]], 1, 2, 3/4⟩ : HashMap String Nat)
        "a" = .ok ⟨0, 0⟩ ∧
      erase_iter (⟨[[⟨"a", 1⟩, ⟨"b", 2⟩]], 1, 2, 3/4⟩ : HashMap String Nat) ⟨0, 0⟩ =
        (mr, itr) ∧
      contains (fun _ => 0) mr "a" = .ok false ∧
      contains (fun _ => 0) mr "b" = .ok true ∧
      (deref mr itr = .ok ⟨"b", 2⟩ ∨ itr = endIter mr)) := by
  constructor
  · have hltb : b < m.buckets.length := hwf.1 ▸ hb
    obtain ⟨hwf', hec, hperm, hcon⟩ := erase_at_spec hwf b i hb hi _ rfl _ rfl
    have hres : ∀ mm : HashMap K V,
        mm = { m with
               buckets := (m.buckets.set b (eraseSwap (m.buckets.getD b []) i)),
               entry_count := m.entry_count - 1 } →
        erase_iter m ⟨b, i⟩ = (mm, specNextCursor mm b i) := by
      intro mm hmm
      subst hmm
      rw [erase_iter]
      dsimp only
      rw [if_neg (Nat.not_le.mpr hb), if_neg (Nat.not_le.mpr hi)]
      rw [specNextCursor, if_pos hb]
      have hgb : ({ m with
                    buckets := (m.buckets.set b (eraseSwap (m.buckets.getD b []) i)),
                    entry_count := m.entry_count - 1 } :
          HashMap K V).buckets.getD b [] =
          eraseSwap (m.buckets.getD b []) i := getD_set_self _ _ hltb
      rw [hgb]
      by_cases hlt : i < (eraseSwap (m.buckets.getD b []) i).length
      · rw [if_pos hlt, if_pos hlt]
      · rw [if_neg hlt, if_neg hlt]
        by_cases hnb : skipEmpty
            ({ m with
               buckets := (m.buckets.set b (eraseSwap (m.buckets.getD b []) i)),
               entry_count := m.entry_count - 1 } : HashMap K V)
            (b + 1) < m.bucket_count
        · rw [if_pos hnb, if_pos hnb]
        · rw [if_neg hnb, if_neg hnb]
    exact ⟨_, _, hres _ rfl, hec, hcon, hperm, rfl⟩
  · refine ⟨⟨[[⟨"b", 2⟩]], 1, 1, 3/4⟩, ⟨0, 0⟩, ?_, ?_, ?_, ?_, Or.inl ?_⟩
    · rfl
    · rfl
    · rfl
    · rfl
    · rfl

end HashMap

namespace HashMap

variable {K V : Type} [DecidableEq K]

/-- Witness for C7 at a concrete instance. -/
theorem claim_C7_witness :
    (∃ m' it', erase_iter (⟨[[⟨0, 5⟩, ⟨1, 6⟩]], 1, 2, 3/4⟩ : HashMap Nat Nat) ⟨0, 0⟩ =
        (m', it') ∧
      m'.entry_count + 1 =
        (⟨[[⟨0, 5⟩, ⟨1, 6⟩]], 1, 2, 3/4⟩ : HashMap Nat Nat).entry_count ∧
      contains id m' (((⟨[[⟨0, 5⟩, ⟨1, 6⟩]], 1, 2, 3/4⟩ :
        HashMap Nat Nat).buckets.getD 0 []).get ⟨0, by decide⟩).key = .ok false ∧
      List.Perm (entriesOf m' ++ [((⟨[[⟨0, 5⟩, ⟨1, 6⟩]], 1, 2, 3/4⟩ :
          HashMap Nat Nat).buckets.getD 0 []).get ⟨0, by decide⟩])
        (entriesOf (⟨[[⟨0, 5⟩, ⟨1, 6⟩]], 1, 2, 3/4⟩ : HashMap Nat Nat)) ∧
      it' = specNextCursor m' 0 0) ∧
    (∃ mr itr,
      find (fun _ => 0) (⟨[[⟨"a", 1⟩, ⟨"b", 2⟩]], 1, 2, 3/4⟩ : HashMap String Nat)
        "a" = .ok ⟨0, 0⟩ ∧
      erase_iter (⟨[[⟨"a", 1⟩, ⟨"b", 2⟩]], 1, 2, 3/4⟩ : HashMap String Nat) ⟨0, 0⟩ =
        (mr, itr) ∧
      contains (fun _ => 0) mr "a" = .ok false ∧
      contains (fun _ => 0) mr "b" = .ok true ∧
      (deref mr itr = .ok ⟨"b", 2⟩ ∨ itr = endIter mr)) :=
  claim_C7 id ⟨[[⟨0, 5⟩, ⟨1, 6⟩]], 1, 2, 3/4⟩ (by decide) 0 0 (by decide) (by decide)

/-- C8: at(k) is a pure lookup (the embedding returns only the value, as
the C++ method reads the table without modifying it) and fails with
KeyNotFound exactly when k is absent; at("missing") on an empty table
signals KeyNotFound. -/
theorem claim_C8 (hash : K → Nat) (m : HashMap K V) (hwf : WF hash m)
    (hbc : 0 < m.bucket_count) (k : K) :
    (atKey hash m k = .error .KeyNotFound ↔ contains hash m k = .ok false) ∧
    (∀ v, atKey hash m k = .ok v ↔ Entry.mk k v ∈ entriesOf m) ∧
    atKey (fun _ => 0) (⟨List.replicate 32 [], 32, 0, 3/4⟩ : HashMap String Nat)
      "missing" = .error .KeyNotFound := by
  refine ⟨?_, ?_, ?_⟩
  · rw [atKey_keynotfound_iff hwf hbc, contains_false_iff hwf hbc]
  · intro v
    exact atKey_ok_iff hwf hbc
  · rfl

/-- Witness for C8 at a concrete instance. -/
theorem claim_C8_witness :
    (atKey id (⟨[[⟨0, 7⟩], [⟨1, 8⟩]], 2, 2, 3/4⟩ : HashMap Nat Nat) 1 =
        .error .KeyNotFound ↔
      contains id (⟨[[⟨0, 7⟩], [⟨1, 8⟩]], 2, 2, 3/4⟩ : HashMap Nat Nat) 1 =
        .ok false) ∧
    (∀ v, atKey id (⟨[[⟨0, 7⟩], [⟨1, 8⟩]], 2, 2, 3/4⟩ : HashMap Nat Nat) 1 = .ok v ↔
      Entry.mk 1 v ∈ entriesOf (⟨[[⟨0, 7⟩], [⟨1, 8⟩]], 2, 2, 3/4⟩ : HashMap Nat Nat)) ∧
    atKey (fun _ => 0) (⟨List.replicate 32 [], 32, 0, 3/4⟩ : HashMap String Nat)
      "missing" = .error .KeyNotFound :=
  claim_C8 id ⟨[[⟨0, 7⟩], [⟨1, 8⟩]], 2, 2, 3/4⟩ (by decide) (by decide) 1

theorem range_map_getD {α : Type} (l : List α) (d : α) :
    (List.range l.length).map (fun i => l.getD i d) = l := by
  induction l with
  | nil => rfl
  | cons x xs ih =>
    rw [List.length_cons, List.range_succ_eq_map, List.map_cons, List.map_map]
    refine congrArg₂ List.cons rfl ?_
    have hcomp : ((fun i => (x :: xs).getD i d) ∘ Nat.succ) =
        (fun i => xs.getD i d) := by
      funext j
      rfl
    rw [hcomp, ih]

/-- C9: the copy constructor duplicates buckets, bucket_count and
entry_count but not max_load_factor — the copy gets the member default
0.75 regardless of the source's setting — and copy assignment likewise
copies only the data, leaving the target's previous max_load_factor in
place. -/
theorem claim_C9 (src tgt : HashMap K V)
    (hlen : src.buckets.length = src.bucket_count) :
    (copyCtor src).max_load_factor = 3 / 4 ∧
    (copyAssign tgt src).max_load_factor = tgt.max_load_factor ∧
    (copyCtor src).buckets = src.buckets ∧
    (copyCtor src).bucket_count = src.bucket_count ∧
    (copyCtor src).entry_count = src.entry_count ∧
    (copyAssign tgt src).buckets = src.buckets ∧
    (copyAssign tgt src).bucket_count = src.bucket_count ∧
    (copyAssign tgt src).entry_count = src.entry_count := by
  have hbk : (List.range src.bucket_count).map (fun i => src.buckets.getD i []) =
      src.buckets := by
    rw [← hlen]
    exact range_map_getD src.buckets []
  exact ⟨rfl, rfl, hbk, rfl, rfl, hbk, rfl, rfl⟩

/-- Witness for C9 at a concrete instance. -/
theorem claim_C9_witness :
    (copyCtor (⟨[[⟨0, 7⟩], [⟨1, 8⟩]], 2, 2, 1/2⟩ : HashMap Nat Nat)).max_load_factor
      = 3 / 4 ∧
    (copyAssign (⟨[[]], 1, 0, 2⟩ : HashMap Nat Nat)
        ⟨[[⟨0, 7⟩], [⟨1, 8⟩]], 2, 2, 1/2⟩).max_load_factor =
      (⟨[[]], 1, 0, 2⟩ : HashMap Nat Nat).max_load_factor ∧
    (copyCtor (⟨[[⟨0, 7⟩], [⟨1, 8⟩]], 2, 2, 1/2⟩ : HashMap Nat Nat)).buckets =
      (⟨[[⟨0, 7⟩], [⟨1, 8⟩]], 2, 2, 1/2⟩ : HashMap Nat Nat).buckets ∧
    (copyCtor (⟨[[⟨0, 7⟩], [⟨1, 8⟩]], 2, 2, 1/2⟩ : HashMap Nat Nat)).bucket_count =
      (⟨[[⟨0, 7⟩], [⟨1, 8⟩]], 2, 2, 1/2⟩ : HashMap Nat Nat).bucket_count ∧
    (copyCtor (⟨[[⟨0, 7⟩], [⟨1, 8⟩]], 2, 2, 1/2⟩ : HashMap Nat Nat)).entry_count =
      (⟨[[⟨0, 7⟩], [⟨1, 8⟩]], 2, 2, 1/2⟩ : HashMap Nat Nat).entry_count ∧
    (copyAssign (⟨[[]], 1, 0, 2⟩ : HashMap Nat Nat)
        ⟨[[⟨0, 7⟩], [⟨1, 8⟩]], 2, 2, 1/2⟩).buckets =
      (⟨[[⟨0, 7⟩], [⟨1, 8⟩]], 2, 2, 1/2⟩ : HashMap Nat Nat).buckets ∧
    (copyAssign (⟨[[]], 1, 0, 2⟩ : HashMap Nat Nat)
        ⟨[[⟨0, 7⟩], [⟨1, 8⟩]], 2, 2, 1/2⟩).bucket_count =
      (⟨[[⟨0, 7⟩], [⟨1, 8⟩]], 2, 2, 1/2⟩ : HashMap Nat Nat).bucket_count ∧
    (copyAssign (⟨[[]], 1, 0, 2⟩ : HashMap Nat Nat)
        ⟨[[⟨0, 7⟩], [⟨1, 8⟩]], 2, 2, 1/2⟩).entry_count =
      (⟨[[⟨0, 7⟩], [⟨1, 8⟩]], 2, 2, 1/2⟩ : HashMap Nat Nat).entry_count :=
  claim_C9 ⟨[[⟨0, 7⟩], [⟨1, 8⟩]], 2, 2, 1/2⟩ ⟨[[]], 1, 0, 2⟩ (by decide)

theorem foldl_push_nil (hash : K → Nat) (n : Nat) :
    ∀ es : List (Entry K V),
      es.foldl (fun bs e => bucketsPush bs (hash e.key % n) e) [] = []
  | [] => rfl
  | e :: es => by
    rw [List.foldl_cons]
    have hz : bucketsPush ([] : List (List (Entry K V))) (hash e.key % n) e = [] := rfl
    rw [hz]
    exact foldl_push_nil hash n es

/-- C10: the positive bucket count is not preserved by rehash: on any
table with entry_count = 0 and bucket_count > 0, rehash(0) sets
bucket_count to 0 and empties the bucket array, after which every
key-based operation reaches the unguarded `hash(key) % 0` (the `none`
branch of `hash_func`, i.e. the DivByZero outcome). -/
theorem claim_C10 (hash : K → Nat) (m : HashMap K V)
    (hec : m.entry_count = 0) (hbc : 0 < m.bucket_count) (k : K) (v : V) :
    (rehash hash m 0).bucket_count = 0 ∧ (rehash hash m 0).buckets = [] ∧
    hash_func hash (rehash hash m 0) k = none ∧
    insert hash (rehash hash m 0) k v = .error .DivByZero ∧
    atKey hash (rehash hash m 0) k = .error .DivByZero ∧
    erase_key hash (rehash hash m 0) k = .error .DivByZero ∧
    contains hash (rehash hash m 0) k = .error .DivByZero ∧
    find hash (rehash hash m 0) k = .error .DivByZero := by
  have hceil : Nat.ceil ((m.entry_count : ℚ) / m.max_load_factor) = 0 := by
    rw [hec]
    norm_num
  have hnb : (if 0 < Nat.ceil ((m.entry_count : ℚ) / m.max_load_factor)
      then Nat.ceil ((m.entry_count : ℚ) / m.max_load_factor) else 0) = 0 := by
    rw [hceil]
    rfl
  rcases rehash_cases hash m 0 with ⟨h0, _⟩ | ⟨nb, hnbeq, _, heq⟩
  · rw [hnb] at h0
    omega
  · have hnb0 : nb = 0 := by rw [hnbeq, hnb]
    subst hnb0
    rw [heq]
    have hbuck : (m.buckets.flatten.foldl
        (fun bs e => bucketsPush bs (hash e.key % 0) e)
        (List.replicate 0 [])) = [] := foldl_push_nil hash 0 m.buckets.flatten
    have hhf : hash_func hash
        ({ buckets := (m.buckets.flatten.foldl
            (fun bs e => bucketsPush bs (hash e.key % 0) e) (List.replicate 0 [])),
           bucket_count := 0, entry_count := m.entry_count,
           max_load_factor := m.max_load_factor } : HashMap K V) k = none := by
      simp [hash_func]
    refine ⟨rfl, hbuck, hhf, ?_, ?_, ?_, ?_, ?_⟩
    · rw [insert, hhf]
    · rw [atKey, find_entry, hhf]
    · rw [erase_key, hhf]
    · rw [contains, find_entry, hhf]
    · rw [find, hhf]

/-- Witness for C10 at a concrete instance. -/
theorem claim_C10_witness :
    (rehash id (⟨[[], []], 2, 0, 3/4⟩ : HashMap Nat Nat) 0).bucket_count = 0 ∧
    (rehash id (⟨[[], []], 2, 0, 3/4⟩ : HashMap Nat Nat) 0).buckets = [] ∧
    hash_func id (rehash id (⟨[[], []], 2, 0, 3/4⟩ : HashMap Nat Nat) 0) 3 = none ∧
    insert id (rehash id (⟨[[], []], 2, 0, 3/4⟩ : HashMap Nat Nat) 0) 3 7 =
      .error .DivByZero ∧
    atKey id (rehash id (⟨[[], []], 2, 0, 3/4⟩ : HashMap Nat Nat) 0) 3 =
      .error .DivByZero ∧
    erase_key id (rehash id (⟨[[], []], 2, 0, 3/4⟩ : HashMap Nat Nat) 0) 3 =
      .error .DivByZero ∧
    contains id (rehash id (⟨[[], []], 2, 0, 3/4⟩ : HashMap Nat Nat) 0) 3 =
      .error .DivByZero ∧
    find id (rehash id (⟨[[], []], 2, 0, 3/4⟩ : HashMap Nat Nat) 0) 3 =
      .error .DivByZero :=
  claim_C10 id ⟨[[], []], 2, 0, 3/4⟩ rfl (by decide) 3 7

end HashMap
